import Mathlib

/-!
# content.js: welding pages into templates and writing them out

A shallow embedding of `lib/generators/content.js`.

* JavaScript strings are lists of characters (`Str`).
* The jsdom tree is a first-order tree of text and element nodes; the jQuery
  calls the source makes are functions on that tree.
* Library collaborators whose code is not part of the repository (the markdown
  converter, the highlighter, the HTML parser and serialiser behind
  `innerHTML`, the `weld` traversal, `Date`, `path.resolve`,
  `path.normalize`, `helpers.unresolve`, the author registry, and what jQuery
  and the DOM make of a value that is not a string) are parameters of the
  model.
* A JavaScript exception is the `error` side of `Except JsError`.
-/

set_option autoImplicit false

namespace Content

/-- A JavaScript string. -/
abbrev Str := List Char

/-! ## Strings -/

/-- `Array.prototype.join(sep)` on an array of strings. -/
def joinWith (sep : Str) : List Str → Str
  | [] => []
  | [s] => s
  | s :: t :: r => s ++ sep ++ joinWith sep (t :: r)

/-- The scan of `String.prototype.replace` with a string pattern: the text before the leftmost
occurrence of `pat` and the text after it, or `none` when `pat` does not occur. -/
def splitFirst (pat : Str) : Str → Option (Str × Str)
  | [] => if pat.isPrefixOf [] then some ([], []) else none
  | c :: cs =>
    if pat.isPrefixOf (c :: cs) then some ([], (c :: cs).drop pat.length)
    else (splitFirst pat cs).map (fun p => (c :: p.1, p.2))

/-- ECMAScript `GetSubstitution` for a string pattern (no capture groups): in the replacement
text `$$` stands for a dollar sign, `$&` for the matched text, dollar-backtick for the text before
the match and dollar-apostrophe for the text after it; every other character, a dollar sign
followed by a digit included, is copied. -/
def getSubstitution (matched before after : Str) : Str → Str
  | [] => []
  | [c] => [c]
  | c :: d :: r =>
    if c = '$' then
      if d = '$' then '$' :: getSubstitution matched before after r
      else if d = '&' then matched ++ getSubstitution matched before after r
      else if d = Char.ofNat 96 then before ++ getSubstitution matched before after r
      else if d = Char.ofNat 39 then after ++ getSubstitution matched before after r
      else c :: getSubstitution matched before after (d :: r)
    else c :: getSubstitution matched before after (d :: r)

/-- `s.replace(pat, rep)` with a string pattern and a string replacement: only the leftmost
occurrence is replaced, by the expansion of `rep`. -/
def replace (s pat rep : Str) : Str :=
  match splitFirst pat s with
  | none => s
  | some (before, after) => before ++ getSubstitution pat before after rep ++ after

/-- The scan of `s.replace(new RegExp(pat, "g"), rep)` for a pattern without regular-expression
metacharacters and a replacement without dollar signs: the first argument counts the characters
of the current match still to be skipped. -/
def replaceAllAux (pat rep : Str) : Nat → Str → Str
  | _, [] => if pat = [] then rep else []
  | skip + 1, _ :: cs => replaceAllAux pat rep skip cs
  | 0, c :: cs =>
    if pat.isPrefixOf (c :: cs) then
      if pat = [] then rep ++ c :: replaceAllAux pat rep 0 cs
      else rep ++ replaceAllAux pat rep (pat.length - 1) cs
    else c :: replaceAllAux pat rep 0 cs

/-- Global replacement of a literal pattern, scanning left to right over non-overlapping
matches. -/
def replaceAll (pat rep s : Str) : Str := replaceAllAux pat rep 0 s

/-- The bungled highlight of `&gt;` that the source searches for (lines 187-188). -/
def defect : Str := "&amp;<span class=\"identifier\">gt</span>;".toList

/-- The text put in place of the bungled highlight. -/
def gtEntity : Str := "&gt;".toList

/-- The search and replace of lines 186-188, applied to the highlighter's output. -/
def repairGt (h : Str) : Str := replaceAll defect gtEntity h

/-- POSIX `path.basename(p)`: trailing slashes are dropped, then the text after the last
remaining slash is returned. -/
def basename (p : Str) : Str :=
  ((p.reverse.dropWhile (fun c => c == '/')).takeWhile (fun c => c != '/')).reverse

/-- Splitting a path at every slash. -/
def splitSlash : Str → List Str
  | [] => [[]]
  | c :: cs =>
    match splitSlash cs with
    | [] => [[c]]
    | s :: r => if c = '/' then [] :: s :: r else (c :: s) :: r

/-- The segment stack of POSIX `path.normalize`: empty and `.` segments are dropped and `..`
removes the segment before it (or is kept, for a relative path, when there is none). The stack is
kept in reverse. -/
def normalizeSegs (allowAbove : Bool) : List Str → List Str → List Str
  | acc, [] => acc
  | acc, s :: r =>
    if s = [] ∨ s = ['.'] then normalizeSegs allowAbove acc r
    else if s = ['.', '.'] then
      match acc with
      | [] => normalizeSegs allowAbove (if allowAbove then [s] else []) r
      | t :: acc' =>
        if t = ['.', '.'] then normalizeSegs allowAbove (s :: t :: acc') r
        else normalizeSegs allowAbove acc' r
    else normalizeSegs allowAbove (s :: acc) r

/-- POSIX `path.normalize(p)`. -/
def posixNormalize (p : Str) : Str :=
  if p = [] then ['.'] else
  let isAbsolute := p.head? = some '/'
  let trailing := p.getLast? = some '/'
  let body := joinWith ['/'] (normalizeSegs (!isAbsolute) [] (splitSlash p)).reverse
  if body = [] then
    if isAbsolute then ['/'] else if trailing then ['.', '/'] else ['.']
  else
    let body := if trailing then body ++ ['/'] else body
    if isAbsolute then '/' :: body else body

/-! ## The document tree and the jQuery calls of the source -/

/-- A node of the document tree: a text node or an element with its attributes (in order) and
children. -/
inductive Node where
  | text (s : Str)
  | elem (tag : Str) (attrs : List (Str × Str)) (children : List Node)
deriving Repr

/-- A value of the page data: `undefined`, or a value as JSON gives it. A number is given by its
decimal text (`String(n)`) and by its truthiness (false for zero and `NaN`); an object or array,
which has no method `replace`, by its string coercion (`String(o)`). -/
inductive Val where
  | undefined
  | null
  | bool (b : Bool)
  | num (text : Str) (truthy : Bool)
  | str (s : Str)
  | obj (text : Str)
deriving DecidableEq, Repr

/-- JavaScript truthiness: `undefined`, `null`, `false`, zero, `NaN` and the empty string are
falsy. -/
def Val.truthy : Val → Bool
  | .undefined => false
  | .null => false
  | .bool b => b
  | .num _ t => t
  | .str s => !s.isEmpty
  | .obj _ => true

/-- String coercion of a value, as in `'/' + val`. -/
def Val.toStr : Val → Str
  | .undefined => "undefined".toList
  | .null => "null".toList
  | .bool b => if b then "true".toList else "false".toList
  | .num t _ => t
  | .str s => s
  | .obj t => t

/-- `typeof v === "undefined"`. -/
def Val.isUndefined : Val → Bool
  | .undefined => true
  | _ => false

/-- `typeof v === "string"`. -/
def Val.isString : Val → Bool
  | .str _ => true
  | _ => false

/-- The value of an attribute, if present. -/
def getAttr (attrs : List (Str × Str)) (name : Str) : Option Str :=
  match attrs with
  | [] => none
  | (k, v) :: r => if k = name then some v else getAttr r name

/-- Setting an attribute: an existing value is overwritten in place, a new attribute is added at
the end. -/
def setAttr (attrs : List (Str × Str)) (name value : Str) : List (Str × Str) :=
  match attrs with
  | [] => [(name, value)]
  | (k, v) :: r => if k = name then (k, value) :: r else (k, v) :: setAttr r name value

/-- Splitting a `class` attribute at the separators jQuery's `hasClass` recognises. -/
def splitClasses : Str → List Str
  | [] => [[]]
  | c :: cs =>
    match splitClasses cs with
    | [] => [[c]]
    | s :: r =>
      if c = ' ' ∨ c = '\n' ∨ c = '\t' ∨ c = '\r' then [] :: s :: r else (c :: s) :: r

/-- The attributes of a node (none for a text node). -/
def Node.attrs : Node → List (Str × Str)
  | .text _ => []
  | .elem _ a _ => a

/-- The children of a node (none for a text node). -/
def Node.children : Node → List Node
  | .text _ => []
  | .elem _ _ cs => cs

/-- The tag of a node (empty for a text node). -/
def Node.tag : Node → Str
  | .text _ => []
  | .elem t _ _ => t

/-- `$(n).hasClass(c)`. -/
def hasClass (n : Node) (c : Str) : Bool :=
  match getAttr n.attrs "class".toList with
  | none => false
  | some v => (splitClasses v).contains c

/-- `$(n).attr(name, value)`. -/
def Node.setAttr (n : Node) (name value : Str) : Node :=
  match n with
  | .text s => .text s
  | .elem t a cs => .elem t (Content.setAttr a name value) cs

/-- Replacing the children of an element. -/
def Node.setChildren (n : Node) (cs : List Node) : Node :=
  match n with
  | .text s => .text s
  | .elem t a _ => .elem t a cs

/-- `$(n).text(s)`: the content becomes one text node. -/
def Node.setText (n : Node) (s : Str) : Node := n.setChildren [.text s]

/-- `$(n).append(c)`. -/
def Node.append (n : Node) (c : Node) : Node := n.setChildren (n.children ++ [c])

mutual
/-- The elements of a subtree that satisfy `p`, the root included, in document order. -/
def selectN (p : Node → Bool) : Node → List Node
  | .text _ => []
  | .elem t a cs => (if p (.elem t a cs) then [.elem t a cs] else []) ++ selectL p cs
/-- The elements of a forest that satisfy `p`, in document order. -/
def selectL (p : Node → Bool) : List Node → List Node
  | [] => []
  | n :: ns => selectN p n ++ selectL p ns
end

/-- `$(sel, ctx)`: the descendants of `ctx` that satisfy `p`, in document order. -/
def find (p : Node → Bool) (ctx : Node) : List Node := selectL p ctx.children

mutual
/-- Replacement of every outermost `tr` element of a subtree by `row`. -/
def replaceTrN (row : Node) : Node → Node
  | .text s => .text s
  | .elem t a cs => if t = "tr".toList then row else .elem t a (replaceTrL row cs)
/-- Replacement of every outermost `tr` element of a forest by `row`. -/
def replaceTrL (row : Node) : List Node → List Node
  | [] => []
  | n :: ns => replaceTrN row n :: replaceTrL row ns
end

/-- `$("tr", $(element)).replaceWith(row)`: the `tr` descendants of the element give way to the
row. -/
def replaceRows (row : Node) (element : Node) : Node :=
  element.setChildren (replaceTrL row element.children)

/-- The exceptions the embedded code can raise. -/
inductive JsError where
  | typeError
  | rangeError
  | collaborator (msg : Str)
deriving DecidableEq, Repr

/-- The collaborators behind the tree: the parser and the serialiser of `innerHTML`;
`new Date(v).toISOString()`, which is `none` where the date is invalid (a `RangeError`); and what
jsdom and jQuery make of a value that is not a string, which depends on their version and may be
an exception: `$(n).html(v)` (for a `v` that is not `undefined` either), `$(n).text(v)` and
`n.innerHTML = v`. -/
structure Html where
  parse : Str → List Node
  serialize : List Node → Str
  isoDate : Val → Option Str
  htmlOther : Node → Val → Except JsError Node
  textOther : Node → Val → Except JsError Node
  assignOther : Node → Val → Except JsError Node

/-- `$(n).html()`. -/
def Html.html (h : Html) (n : Node) : Str := h.serialize n.children

/-- `n.innerHTML = s`, for a string `s`. -/
def Html.setInnerHTML (h : Html) (n : Node) (s : Str) : Node := n.setChildren (h.parse s)

/-- `$(n).html(val)`: with `undefined` jQuery reads instead of writing, so nothing changes. -/
def Html.setHtml (h : Html) (n : Node) (val : Val) : Except JsError Node :=
  match val with
  | .undefined => .ok n
  | .str s => .ok (h.setInnerHTML n s)
  | v => h.htmlOther n v

/-- `$(n).text(val)`, for a `val` that is not `undefined`. -/
def Html.setTextVal (h : Html) (n : Node) (val : Val) : Except JsError Node :=
  match val with
  | .str s => .ok (n.setText s)
  | v => h.textOther n v

/-- `n.innerHTML = val`. -/
def Html.assign (h : Html) (n : Node) (val : Val) : Except JsError Node :=
  match val with
  | .str s => .ok (h.setInnerHTML n s)
  | v => h.assignOther n v

/-! ## The `map` handler handed to `weld` (lines 85-148) -/

/-- The path accumulated by the `each` loop of lines 91-93 over `$('.breadcrumb', parent)`. -/
def crumbTrail (h : Html) (parent : Node) : Str :=
  (find (fun v => hasClass v "breadcrumb".toList) parent).foldl
    (fun crumb v => crumb ++ '/' :: h.html v) []

/-- The table row of lines 110-114. -/
def listingRow (val : Str) : Node :=
  .elem "tr".toList [("class".toList, "ls".toList)]
    [.elem "td".toList []
      [.elem "a".toList [("href".toList, replace val "pages/".toList [])]
        [.text (basename val)]]]

/-- The `map` function of lines 85-148: the element after the call and the value returned. The
call `val.replace(...)` is a `TypeError` for a value that is not a string (`undefined` and `null`
have no properties, the other values no method `replace`), an invalid date is a `RangeError`. -/
def weld.map (h : Html) (parent element : Node) (_key : Str) (val : Val) :
    Except JsError (Node × Bool) :=
  if hasClass element "breadcrumb".toList then
    let crumb := crumbTrail h parent ++ '/' :: val.toStr
    match h.setHtml (element.setAttr "href".toList crumb) val with
    | .error e => .error e
    | .ok element => .ok (element, false)
  else if hasClass element "ls".toList then
    match val with
    | .str v => .ok (replaceRows (listingRow v) element, false)
    | _ => .error .typeError
  else if hasClass element "date".toList then
    if val.truthy then
      match h.isoDate val with
      | none => .error .rangeError
      | some date =>
        if date.isEmpty then .ok (element, false)
        else
          match h.setTextVal (element.setAttr "datetime".toList date) val with
          | .error e => .error e
          | .ok element => .ok (element, false)
    else .ok (element, false)
  else if hasClass element "github".toList then
    if val.truthy then
      .ok (element.append
        (.elem "a".toList [("href".toList, "https://github.com/".toList ++ val.toStr)]
          [.text "[github]".toList]), false)
    else .ok (element, false)
  else
    match h.assign element val with
    | .error e => .error e
    | .ok element => .ok (element, false)

/-! ## Selections on the page tree (lines 152-173) -/

/-- Whether an attribute list carries `id="metadata"`. -/
def isMetadataId (attrs : List (Str × Str)) : Bool :=
  getAttr attrs "id".toList = some "metadata".toList

mutual
/-- Removal, below a node, of every node for which `p` holds; the flag tells whether an ancestor
inside the tree has the id `metadata`. The test looks at the tree as it was before any removal. -/
def pruneN (p : Bool → Node → Bool) (inMeta : Bool) : Node → Node
  | .text s => .text s
  | .elem t a cs => .elem t a (pruneL p (inMeta || isMetadataId a) cs)
/-- Removal, in a forest, of every node for which `p` holds. -/
def pruneL (p : Bool → Node → Bool) (inMeta : Bool) : List Node → List Node
  | [] => []
  | n :: ns =>
    if p inMeta n then pruneL p inMeta ns else pruneN p inMeta n :: pruneL p inMeta ns
end

mutual
/-- Whether a node has, exactly `k` levels below it (itself for `k = 0`), an element matched by
`#metadata .date`: an element of class `date` with an ancestor of id `metadata`. -/
def dateAtN (inMeta : Bool) : Nat → Node → Bool
  | _, .text _ => false
  | k, .elem t a cs =>
    match k with
    | 0 => inMeta && hasClass (.elem t a cs) "date".toList
    | k + 1 => dateAtL (inMeta || isMetadataId a) k cs
/-- Whether one node of a forest has a `#metadata .date` element exactly `k` levels below it. -/
def dateAtL (inMeta : Bool) : Nat → List Node → Bool
  | _, [] => false
  | k, n :: ns => dateAtN inMeta k n || dateAtL inMeta k ns
end

/-- The element `$("#metadata .title", dom)` selects. -/
def isMetaTitle (inMeta : Bool) (n : Node) : Bool := inMeta && hasClass n "title".toList

/-- The block `$("#metadata .date", dom).parent().parent().parent()` selects: an element three
ancestor levels up from a `#metadata .date` element. -/
def isDateBlock (inMeta : Bool) (n : Node) : Bool := dateAtN inMeta 3 n

/-- `$("#metadata .title", dom).remove()`. -/
def removeTitle (dom : Node) : Node := dom.setChildren (pruneL isMetaTitle false dom.children)

/-- `$("#metadata .date", dom).parent().parent().parent().remove()`, as far as it changes the
content of `dom` (an ancestor that is `dom` itself or lies above it is not part of that
content). -/
def removeDateBlock (dom : Node) : Node := dom.setChildren (pruneL isDateBlock false dom.children)

mutual
/-- Whether a date block is present in a subtree, the root included. -/
def hasDateBlockN (inMeta : Bool) : Node → Bool
  | .text _ => false
  | .elem t a cs => isDateBlock inMeta (.elem t a cs) || hasDateBlockL (inMeta || isMetadataId a) cs
/-- Whether a date block is present in a forest. -/
def hasDateBlockL (inMeta : Bool) : List Node → Bool
  | [] => false
  | n :: ns => hasDateBlockN inMeta n || hasDateBlockL inMeta ns
end

mutual
/-- Whether a `#metadata .title` element is present in a subtree, the root included. -/
def hasMetaTitleN (inMeta : Bool) : Node → Bool
  | .text _ => false
  | .elem t a cs => isMetaTitle inMeta (.elem t a cs) || hasMetaTitleL (inMeta || isMetadataId a) cs
/-- Whether a `#metadata .title` element is present in a forest. -/
def hasMetaTitleL (inMeta : Bool) : List Node → Bool
  | [] => false
  | n :: ns => hasMetaTitleN inMeta n || hasMetaTitleL inMeta ns
end

mutual
/-- The nodes of a subtree in document order, each with its depth and without its children. -/
def outlineN (depth : Nat) : Node → List (Nat × Node)
  | .text s => [(depth, .text s)]
  | .elem t a cs => (depth, .elem t a []) :: outlineL (depth + 1) cs
/-- The nodes of a forest in document order, each with its depth and without its children. -/
def outlineL (depth : Nat) : List Node → List (Nat × Node)
  | [] => []
  | n :: ns => outlineN depth n ++ outlineL depth ns
end

mutual
/-- The nodes of a subtree that lie outside every node for which `p` holds: the outline of the
subtree without those nodes and without what is below them. -/
def outsideN (p : Bool → Node → Bool) (inMeta : Bool) (depth : Nat) : Node → List (Nat × Node)
  | .text s => [(depth, .text s)]
  | .elem t a cs =>
    (depth, .elem t a []) :: outsideL p (inMeta || isMetadataId a) (depth + 1) cs
/-- The nodes of a forest that lie outside every node for which `p` holds. -/
def outsideL (p : Bool → Node → Bool) (inMeta : Bool) (depth : Nat) :
    List Node → List (Nat × Node)
  | [] => []
  | n :: ns =>
    (if p inMeta n then [] else outsideN p inMeta depth n) ++ outsideL p inMeta depth ns
end

mutual
/-- Replacement of the content of every `title` element of a subtree. -/
def setTitleN (content : List Node) : Node → Node
  | .text s => .text s
  | .elem t a cs =>
    if t = "title".toList then .elem t a content else .elem t a (setTitleL content cs)
/-- Replacement of the content of every `title` element of a forest. -/
def setTitleL (content : List Node) : List Node → List Node
  | [] => []
  | n :: ns => setTitleN content n :: setTitleL content ns
end

/-- `$('title', dom).html(s)`. -/
def setTitle (h : Html) (dom : Node) (s : Str) : Node :=
  dom.setChildren (setTitleL (h.parse s) dom.children)

mutual
/-- Setting the `content` attribute of every `meta[name=keywords]` element of a subtree. -/
def setKeywordsN (v : Str) : Node → Node
  | .text s => .text s
  | .elem t a cs =>
    .elem t
      (if t = "meta".toList ∧ getAttr a "name".toList = some "keywords".toList
        then setAttr a "content".toList v else a)
      (setKeywordsL v cs)
/-- Setting the `content` attribute of every `meta[name=keywords]` element of a forest. -/
def setKeywordsL (v : Str) : List Node → List Node
  | [] => []
  | n :: ns => setKeywordsN v n :: setKeywordsL v ns
end

/-- `$('meta[name=keywords]', dom).attr('content', v)`. -/
def setKeywords (dom : Node) (v : Str) : Node := dom.setChildren (setKeywordsL v dom.children)

/-! ## Pages and `content.weld` (lines 24-197) -/

/-- The raw record of an author in the registry (`.file.store`). -/
structure AuthorStore where
  name : Val
  github : Val
deriving DecidableEq, Repr

/-- What the lookup `docs.content.authors[key]` gives: a falsy value (no author under the key);
an nconf object, with what its `.file.store` is (`none` for `undefined`); or a truthy value
whose `file` is `undefined` or `null`, as the inherited `constructor` of the registry object is,
on which `.file.store` is a `TypeError`. -/
inductive Registered where
  | missing
  | conf (store : Option AuthorStore)
  | other
deriving DecidableEq, Repr

/-- The `author` field of a page's metadata: the id it is loaded with, the registry record that
line 49 puts in its place, or the object `{ name: author }` of line 51. -/
inductive Author where
  | id (s : Str)
  | store (r : AuthorStore)
  | named (name : Author)
deriving DecidableEq, Repr

/-- Truthiness of an `author` field: only the empty id is falsy. -/
def Author.truthy : Author → Bool
  | .id s => !s.isEmpty
  | _ => true

/-- The property key an `author` field is coerced to in `docs.content.authors[metadata.author]`. -/
def Author.key : Author → Str
  | .id s => s
  | _ => "[object Object]".toList

/-- The metadata of a page; a field that is absent is `undefined` or `none`. -/
structure Metadata where
  title : Val
  date : Val
  author : Option Author
  tags : Option (List Str)
  breadcrumb : Option (List Str)
deriving DecidableEq, Repr

/-- A page record: `content`, `metadata` and `ls` may each be absent. -/
structure Page where
  content : Option Str
  metadata : Option Metadata
  ls : Option (List Str)
deriving DecidableEq, Repr

/-- The data welded to the template: the object of lines 60-64 or the one of lines 70-79. -/
inductive Data (T : Type) where
  | article (metadata : Metadata) (content : Str) (toc : T)
  | directory (pwd : Str) (ls : List Str) (toc : T) (metadata : Metadata)

/-- The two views of the theme. -/
inductive View where
  | article
  | directory
deriving DecidableEq, Repr

/-- The signature of the `map` option of `weld`. -/
abbrev MapFn := Node → Node → Str → Val → Except JsError (Node × Bool)

/-- The state of the `docs` module and the collaborators `content.js` requires: `T` is the type
of the generated table of contents. -/
structure Docs (T : Type) where
  html : Html
  markdownParse : Str → Except JsError Str
  hl : Str → Except JsError Str
  weld : Node → Data T → MapFn → Except JsError Node
  unresolve : Str → Str → Str
  resolve : Str → Str
  normalize : Str → Str
  src : Str
  dst : Str
  toc : T
  authors : Str → Registered
  articleHtml : Str
  directoryHtml : Str
  tags : Option (List Str)

/-- Reading a property of `metadata`: a `TypeError` when `metadata` is `undefined`. -/
def prop {α : Type} (metadata : Option Metadata) (field : Metadata → α) : Except JsError α :=
  match metadata with
  | none => .error .typeError
  | some m => .ok (field m)

/-- Lines 38-40: the markdown of the page, when its content is truthy. -/
def parseContent {T : Type} (d : Docs T) (page : Page) : Except JsError (Option Str) :=
  match page.content with
  | none => .ok none
  | some c => if c.isEmpty then .ok none else (d.markdownParse c).map some

/-- Lines 47-53: the author id gives way to the registry record, or to `{ name: author }`; the
lookup of a key under which the registry holds something else than an nconf object raises a
`TypeError` at line 49, before `metadata.author` is assigned. -/
def resolveAuthor {T : Type} (d : Docs T) (metadata : Option Metadata) :
    Except JsError (Option Metadata) :=
  match metadata with
  | none => .ok none
  | some m =>
    match m.author with
    | none => .ok (some m)
    | some a =>
      if a.truthy then
        match d.authors a.key with
        | .conf store => .ok (some { m with author := store.map Author.store })
        | .other => .error .typeError
        | .missing => .ok (some { m with author := some (.named a) })
      else .ok (some m)

/-- Lines 56-81: which view is used. -/
def selectView (md : Option Str) (metadata : Option Metadata) : View :=
  match md, metadata with
  | some _, some _ => .article
  | _, _ => .directory

/-- The metadata a directory without metadata is welded with (line 78):
`{ breadcrumb: ["."] }`. -/
def rootCrumb : Metadata :=
  { title := .undefined, date := .undefined, author := none, tags := none,
    breadcrumb := some [['.']] }

/-- Lines 56-81: the data welded to the view. -/
def buildData {T : Type} (d : Docs T) (i : Str) (page : Page) (md : Option Str)
    (metadata : Option Metadata) : Data T :=
  match md, metadata with
  | some md, some m => .article m md d.toc
  | _, _ =>
    .directory (d.unresolve d.src i) (page.ls.getD []) d.toc
      (metadata.getD rootCrumb)

/-- Lines 58 and 68: the template put in `dom`. -/
def template {T : Type} (d : Docs T) : View → Str
  | .article => d.articleHtml
  | .directory => d.directoryHtml

/-- Lines 154-159: the elements meant for a missing title or date are removed. -/
def pruneMissing (metadata : Option Metadata) (dom : Node) : Except JsError Node := do
  let dom ←
    if metadata.isSome then do
      let title ← prop metadata Metadata.title
      pure (if title.isUndefined then removeTitle dom else dom)
    else pure dom
  if metadata.isSome then do
    let date ← prop metadata Metadata.date
    pure (if date.isUndefined then removeDateBlock dom else dom)
  else pure dom

/-- Lines 162-166: the page title. -/
def giveTitle (h : Html) (metadata : Option Metadata) (dom : Node) : Except JsError Node :=
  if metadata.isSome then do
    let title ← prop metadata Metadata.title
    pure (if title.truthy then setTitle h dom ("node docs :: ".toList ++ title.toStr) else dom)
  else pure dom

/-- Lines 171-172: the value of the keywords meta tag. -/
def keywords {T : Type} (d : Docs T) (metadata : Option Metadata) : Except JsError Str := do
  let own ← if metadata.isSome then prop metadata Metadata.tags else pure none
  pure (joinWith [','] (own.getD [] ++ d.tags.getD []))

/-- Lines 152-173: pruning, title and keywords, on the welded tree. -/
def decorate {T : Type} (d : Docs T) (metadata : Option Metadata) (dom : Node) :
    Except JsError Node := do
  let dom ← pruneMissing metadata dom
  let dom ← giveTitle d.html metadata dom
  let kw ← keywords d metadata
  pure (setKeywords dom kw)

/-- Lines 186-188: highlighting and the repair of its output, put back in `dom`. -/
def highlight {T : Type} (d : Docs T) (dom : Node) : Except JsError Node := do
  let h ← d.hl (d.html.html dom)
  pure (d.html.setInnerHTML dom (repairGt h))

/-- An exception that leaves the loop body, together with the page record as it stands then. -/
def failWith {α : Type} (page : Page) (x : Except JsError α) : Except (JsError × Page) α :=
  match x with
  | .error e => .error (e, page)
  | .ok a => .ok a

/-- Lines 33-173 of the loop body for the page with key `i`: the welded and decorated tree, and
the page record with its author resolved; or the exception, with the page record as it stands
when it is raised. -/
def prepare {T : Type} (d : Docs T) (dom : Node) (i : Str) (page : Page) :
    Except (JsError × Page) (Node × Page) := do
  let md ← failWith page (parseContent d page)
  let metadata ← failWith page (resolveAuthor d page.metadata)
  let page := { page with metadata := metadata }
  let dom := d.html.setInnerHTML dom (template d (selectView md metadata))
  let dom ← failWith page (d.weld dom (buildData d i page md metadata) (weld.map d.html))
  let dom ← failWith page (decorate d metadata dom)
  pure (dom, page)

/-- The body of the `forEach` of lines 32-193 for the page with key `i`: the tree and the page
record afterwards, or the exception with the page record as it stands when it is raised. -/
def weldPage {T : Type} (d : Docs T) (dom : Node) (i : Str) (page : Page) :
    Except (JsError × Page) (Node × Page) := do
  let (dom, page) ← prepare d dom i page
  let dom ← failWith page (highlight d dom)
  pure (dom, { page with content := some (d.html.html dom) })

/-- The `forEach` loop over the pages in key order: the page records as they stand at the end and
the tree, or the exception that ended the loop. -/
def weldLoop {T : Type} (d : Docs T) (dom : Node) :
    List (Str × Page) → List (Str × Page) × Except JsError Node
  | [] => ([], .ok dom)
  | (i, page) :: rest =>
    match weldPage d dom i page with
    | .error (e, page') => ((i, page') :: rest, .error e)
    | .ok (dom', page') =>
      let r := weldLoop d dom' rest
      ((i, page') :: r.1, r.2)

/-- `content.weld(dom, pages)`. -/
def weld {T : Type} (d : Docs T) (dom : Node) (pages : List (Str × Page)) :
    List (Str × Page) × Except JsError Node :=
  weldLoop d dom pages

/-! ## `content.generate` (lines 199-210) -/

/-- Lines 203-205: the path a page is written to. -/
def newPath {T : Type} (d : Docs T) (file : Str) : Str :=
  d.normalize (replace file (d.resolve d.src) (d.resolve d.dst) ++ "/index.html".toList)

/-- `content.generate(output, pages)`: the files handed to `fs2.writeFile`, in key order, with the
content written to each. -/
def generate {T : Type} (d : Docs T) (pages : List (Str × Page)) : List (Str × Option Str) :=
  pages.map (fun fp => (newPath d fp.1, fp.2.content))

/-- POSIX `path.resolve(p)` in the working directory `cwd` (an absolute path). -/
def posixResolve (cwd p : Str) : Str :=
  let full := if p.head? = some '/' then p else cwd ++ '/' :: p
  '/' :: joinWith ['/'] (normalizeSegs false [] (splitSlash full)).reverse

/-! ## A concrete set of collaborators

A small serialiser and parser for well-formed markup, a `weld` that binds scalar and list values
to the elements matching a key, and a theme of two short templates. They instantiate the
parameters of the model where a statement is evaluated on concrete pages. -/

/-- Character references read by the parser. -/
def decodeEntities : Str → Str
  | [] => []
  | '&' :: 'a' :: 'm' :: 'p' :: ';' :: r => '&' :: decodeEntities r
  | '&' :: 'l' :: 't' :: ';' :: r => '<' :: decodeEntities r
  | '&' :: 'g' :: 't' :: ';' :: r => '>' :: decodeEntities r
  | '&' :: 'q' :: 'u' :: 'o' :: 't' :: ';' :: r => Char.ofNat 34 :: decodeEntities r
  | c :: r => c :: decodeEntities r

/-- Escaping of a text node by the serialiser. -/
def encodeText : Str → Str
  | [] => []
  | c :: r =>
    if c = '&' then "&amp;".toList ++ encodeText r
    else if c = '<' then "&lt;".toList ++ encodeText r
    else if c = '>' then "&gt;".toList ++ encodeText r
    else c :: encodeText r

/-- Escaping of an attribute value by the serialiser. -/
def encodeAttr : Str → Str
  | [] => []
  | c :: r =>
    if c = '&' then "&amp;".toList ++ encodeAttr r
    else if c = Char.ofNat 34 then "&quot;".toList ++ encodeAttr r
    else c :: encodeAttr r

/-- Elements without content or end tag. -/
def voidTags : List Str :=
  ["meta".toList, "br".toList, "img".toList, "input".toList, "link".toList, "hr".toList]

/-- Serialisation of an attribute list. -/
def serializeAttrs : List (Str × Str) → Str
  | [] => []
  | (k, v) :: r =>
    ' ' :: k ++ ['=', Char.ofNat 34] ++ encodeAttr v ++ [Char.ofNat 34] ++ serializeAttrs r

mutual
/-- Serialisation of a node. -/
def serializeN : Node → Str
  | .text s => encodeText s
  | .elem t a cs =>
    if voidTags.contains t then '<' :: t ++ serializeAttrs a ++ ['>']
    else '<' :: t ++ serializeAttrs a ++ ['>'] ++ serializeL cs ++ ['<', '/'] ++ t ++ ['>']
/-- Serialisation of a forest: what reading `innerHTML` returns. -/
def serializeL : List Node → Str
  | [] => []
  | n :: ns => serializeN n ++ serializeL ns
end

/-- A token of markup: the inside of a tag, or a run of text. -/
inductive Tok where
  | tag (raw : Str)
  | text (s : Str)
deriving Repr

/-- Cutting markup into tags and text; the accumulator is kept in reverse. -/
def tokenize : Str → Bool → Str → List Tok
  | [], inTag, acc =>
    if acc = [] then [] else [if inTag then .tag acc.reverse else .text acc.reverse]
  | c :: cs, false, acc =>
    if c = '<' then (if acc = [] then [] else [.text acc.reverse]) ++ tokenize cs true []
    else tokenize cs false (c :: acc)
  | c :: cs, true, acc =>
    if c = '>' then .tag acc.reverse :: tokenize cs false [] else tokenize cs true (c :: acc)

/-- Reading the attributes of a start tag: mode 0 reads a name, mode 1 waits for the opening
quote, mode 2 reads the value. -/
def parseAttrs : Str → Nat → Str → Str → List (Str × Str)
  | [], 0, n, _ => if n = [] then [] else [(n.reverse, [])]
  | [], _, n, v => [(n.reverse, decodeEntities v.reverse)]
  | c :: cs, 0, n, _ =>
    if c = ' ' then
      (if n = [] then [] else [(n.reverse, [])]) ++ parseAttrs cs 0 [] []
    else if c = '=' then parseAttrs cs 1 n []
    else parseAttrs cs 0 (c :: n) []
  | c :: cs, 1, n, v =>
    if c = Char.ofNat 34 then parseAttrs cs 2 n [] else parseAttrs cs 1 n v
  | c :: cs, _ + 2, n, v =>
    if c = Char.ofNat 34 then (n.reverse, decodeEntities v.reverse) :: parseAttrs cs 0 [] []
    else parseAttrs cs 2 n (c :: v)

/-- An element under construction: tag, attributes, and the children read so far, in reverse. -/
abbrev Frame := Str × List (Str × Str) × List Node

/-- Adding a finished node to the innermost open element, or to the top level. -/
def addNode (n : Node) (stack : List Frame) (top : List Node) : List Frame × List Node :=
  match stack with
  | [] => ([], n :: top)
  | (t, a, ch) :: rest => ((t, a, n :: ch) :: rest, top)

/-- Closing every element still open at the end of the input; the second argument is the element
closed last, still to be put into its parent. -/
def unwind : List Frame → Option Node → List Node → List Node
  | [], none, top => top.reverse
  | [], some n, top => (n :: top).reverse
  | (t, a, ch) :: rest, none, top => unwind rest (some (.elem t a ch.reverse)) top
  | (t, a, ch) :: rest, some n, top => unwind rest (some (.elem t a (n :: ch).reverse)) top

/-- Building the forest from the tokens. -/
def build : List Tok → List Frame → List Node → List Node
  | [], stack, top => unwind stack none top
  | .text s :: r, stack, top =>
    let st := addNode (.text (decodeEntities s)) stack top
    build r st.1 st.2
  | .tag raw :: r, stack, top =>
    if raw.head? = some '/' then
      match stack with
      | [] => build r [] top
      | (t, a, ch) :: rest =>
        let st := addNode (.elem t a ch.reverse) rest top
        build r st.1 st.2
    else
      let name := raw.takeWhile (fun c => c != ' ')
      let attrs := parseAttrs (raw.dropWhile (fun c => c != ' ')) 0 [] []
      if voidTags.contains name then
        let st := addNode (.elem name attrs []) stack top
        build r st.1 st.2
      else build r ((name, attrs, []) :: stack) top

/-- Parsing well-formed markup: what assigning `innerHTML` builds. -/
def parseHtml (s : Str) : List Node := build (tokenize s false []) [] []

/-- A stand-in for `new Date(v).toISOString()` that knows the one calendar date of the examples
and takes every other value for no date. -/
def isoDateOf (v : Val) : Option Str :=
  if v = .str "2011-08-09".toList then some "2011-08-09T00:00:00.000Z".toList else none

/-- A stand-in for `$(n).html(v)` on a value that is neither `undefined` nor a string, after
what jQuery appends: a number other than `NaN` and `true` become a text node, every other value
leaves the element empty. -/
def appendOther (n : Node) (v : Val) : Except JsError Node :=
  match v with
  | .num t _ => .ok (n.setChildren (if t = "NaN".toList then [] else [.text t]))
  | .bool true => .ok (n.setChildren [.text "true".toList])
  | _ => .ok (n.setChildren [])

/-- A stand-in for `$(n).text(v)` on a value that is not a string: the text of the value. -/
def textOther (n : Node) (v : Val) : Except JsError Node := .ok (n.setText v.toStr)

/-- A stand-in for `n.innerHTML = v` on a value that is not a string: `null` empties the
element, every other value is assigned as its text. -/
def assignOther (n : Node) (v : Val) : Except JsError Node :=
  match v with
  | .null => .ok (n.setChildren [])
  | v => .ok (n.setChildren (parseHtml v.toStr))

/-- The tree collaborators of the examples. -/
def exampleHtml : Html :=
  { parse := parseHtml, serialize := serializeL, isoDate := isoDateOf, htmlOther := appendOther,
    textOther := textOther, assignOther := assignOther }

/-- The match of `weld`: an element answers to a key by class, by id or by name. -/
def matchesKey (key : Str) (n : Node) : Bool :=
  hasClass n key || getAttr n.attrs "id".toList = some key ||
    getAttr n.attrs "name".toList = some key

/-- One value after the other is bound to a copy of the template element by the `map` function;
a copy is put into the parent once it is bound, so that the parent handed to `map` holds the
copies made so far. -/
def stamp (f : MapFn) (around : List Node → Node) (tpl : Node) (key : Str) :
    List Val → List Node → Except JsError (List Node)
  | [], done => .ok done
  | v :: vs, done =>
    match f (around done) tpl key v with
    | .error e => .error e
    | .ok (e, _) => stamp f around tpl key vs (done ++ [e])

mutual
/-- Binding the values to the elements that answer to the key, below a node. -/
def bindN (f : MapFn) (key : Str) (vals : List Val) : Node → Except JsError Node
  | .text s => .ok (.text s)
  | .elem t a cs =>
    match bindL f key vals (fun x => .elem t a x) [] cs with
    | .error e => .error e
    | .ok cs' => .ok (.elem t a cs')
/-- Binding the values to the elements that answer to the key, in the children of a node: an
element that answers gives way to its bound copies and is not entered. -/
def bindL (f : MapFn) (key : Str) (vals : List Val) (mk : List Node → Node) (pre : List Node) :
    List Node → Except JsError (List Node)
  | [] => .ok pre
  | n :: ns =>
    if matchesKey key n then
      match stamp f (fun mid => mk (pre ++ mid ++ ns)) n key vals [] with
      | .error e => .error e
      | .ok copies => bindL f key vals mk (pre ++ copies) ns
    else
      match bindN f key vals n with
      | .error e => .error e
      | .ok n' => bindL f key vals mk (pre ++ [n']) ns
end

/-- Binding one key of the data; a key that is absent leaves the tree as it is. -/
def bindKey (f : MapFn) (key : String) (vals : Option (List Val)) (dom : Node) :
    Except JsError Node :=
  match vals with
  | none => .ok dom
  | some vs => bindN f key.toList vs dom

/-- The values of a scalar property: none when it is absent. -/
def scalar : Val → Option (List Val)
  | .undefined => none
  | v => some [v]

/-- The GitHub handle of a resolved author. -/
def githubOf : Option Author → Val
  | some (.store r) => r.github
  | _ => .undefined

/-- A `weld` for the examples: every property of the data is bound, in a fixed order, to the
elements that answer to its key. -/
def exampleWeld {T : Type} (dom : Node) (data : Data T) (f : MapFn) : Except JsError Node :=
  match data with
  | .article m md _ => do
    let dom ← bindKey f "content" (some [.str md]) dom
    let dom ← bindKey f "title" (scalar m.title) dom
    let dom ← bindKey f "date" (scalar m.date) dom
    let dom ← bindKey f "github" (scalar (githubOf m.author)) dom
    bindKey f "breadcrumb" (m.breadcrumb.map (fun l => l.map Val.str)) dom
  | .directory pwd ls _ m => do
    let dom ← bindKey f "pwd" (some [.str pwd]) dom
    let dom ← bindKey f "ls" (some (ls.map Val.str)) dom
    bindKey f "breadcrumb" (m.breadcrumb.map (fun l => l.map Val.str)) dom

/-- The article template of the examples. -/
def exampleArticle : Str :=
  ("<title></title><meta name=\"keywords\"><div id=\"metadata\"><h1 class=\"title\"></h1>" ++
   "<p><span><i><time class=\"date\"></time></i></span></p></div>" ++
   "<div class=\"content\"></div>").toList

/-- The directory template of the examples. -/
def exampleDirectory : Str :=
  ("<title></title><meta name=\"keywords\"><nav><a class=\"breadcrumb\"></a></nav>" ++
   "<table><tbody class=\"ls\"><tr></tr></tbody></table>").toList

/-- Property names every plain object inherits, with a function for a value. -/
def inheritedKeys : List Str :=
  ["constructor".toList, "toString".toList, "valueOf".toList, "hasOwnProperty".toList,
   "isPrototypeOf".toList, "propertyIsEnumerable".toList, "toLocaleString".toList]

/-- The collaborators and module state of the examples: a markdown converter that wraps its
input in a paragraph, a highlighter that bungles every `&gt;` as the comment of lines 177-179
describes, one registered author and two global tags. -/
def exampleDocs : Docs Unit where
  html := exampleHtml
  markdownParse := fun s => .ok ("<p>".toList ++ s ++ "</p>".toList)
  hl := fun s => .ok (replaceAll "&gt;".toList defect s)
  weld := exampleWeld
  unresolve := fun src i => i.drop (src.length + 1)
  resolve := posixResolve "/".toList
  normalize := posixNormalize
  src := "/src".toList
  dst := "/out".toList
  toc := ()
  authors := fun k =>
    if k = "marak".toList then
      .conf (some { name := .str "Marak".toList, github := .str "marak".toList })
    else if k ∈ inheritedKeys then .other
    else .missing
  articleHtml := exampleArticle
  directoryHtml := exampleDirectory
  tags := some ["node".toList, "docs".toList]

/-- The element `dom` of the examples. -/
def exampleDom : Node := .elem "div".toList [] []

/-- An article with a date, an author and a comparison in its text. -/
def examplePost : Page where
  content := some "x &gt; y".toList
  metadata := some
    { title := .str "Hello".toList, date := .str "2011-08-09".toList,
      author := some (.id "marak".toList), tags := some ["intro".toList],
      breadcrumb := some ["articles".toList, "hello".toList] }
  ls := none

/-- A directory without content or metadata. -/
def exampleDir : Page where
  content := none
  metadata := none
  ls := some ["pages/x.md".toList, "pages/y/z.md".toList]

/-- The key of the example article. -/
def exampleKey : Str := "/src/articles/hello".toList

/-- The tree and the page record of the example article before highlighting. -/
def examplePrepared : Node × Page :=
  match prepare exampleDocs exampleDom exampleKey examplePost with
  | .ok r => r
  | .error _ => (exampleDom, examplePost)

/-- The tree of the example article before highlighting. -/
def exampleTree : Node := examplePrepared.1

/-- What the highlighter of the examples returns for the example article. -/
def exampleHighlighted : Str :=
  match exampleDocs.hl (exampleDocs.html.html exampleTree) with
  | .ok h => h
  | .error _ => []

/-- A highlighted text in which the `span` tag of the bungled highlight has two blanks. -/
def spacedHighlight : Str := "<p>x</p>&amp;<span  class=\"identifier\">gt</span>;".toList

/-- The module state of the examples with a highlighter that returns `spacedHighlight`. -/
def spacedDocs : Docs Unit := { exampleDocs with hl := fun _ => .ok spacedHighlight }

/-- The module state of the examples with a destination root that holds two dollar signs. -/
def dollarDocs : Docs Unit := { exampleDocs with dst := "/out/$$".toList }

/-! ## The rules of the `map` handler, one by one -/

/-- The five rules of the handler. -/
inductive Rule where
  | breadcrumb
  | listing
  | date
  | authorLink
  | rawInject
deriving DecidableEq, Repr

/-- The classes that select a rule, in the order in which the handler tests them. -/
def rulePriority : List (Str × Rule) :=
  [("breadcrumb".toList, .breadcrumb), ("ls".toList, .listing), ("date".toList, .date),
   ("github".toList, .authorLink)]

/-- The rule of the first class in priority order that the element carries; raw injection when it
carries none. -/
def chooseRule (element : Node) : Rule :=
  match rulePriority.find? (fun p => hasClass element p.1) with
  | some p => p.2
  | none => .rawInject

/-- The effect of one rule on the element, and the value it returns. -/
def applyRule (h : Html) (r : Rule) (parent element : Node) (val : Val) :
    Except JsError (Node × Bool) :=
  match r with
  | .breadcrumb =>
    match h.setHtml (element.setAttr "href".toList (crumbTrail h parent ++ '/' :: val.toStr))
        val with
    | .error e => .error e
    | .ok element => .ok (element, false)
  | .listing =>
    match val with
    | .str v => .ok (replaceRows (listingRow v) element, false)
    | _ => .error .typeError
  | .date =>
    if val.truthy then
      match h.isoDate val with
      | none => .error .rangeError
      | some date =>
        if date.isEmpty then .ok (element, false)
        else
          match h.setTextVal (element.setAttr "datetime".toList date) val with
          | .error e => .error e
          | .ok element => .ok (element, false)
    else .ok (element, false)
  | .authorLink =>
    if val.truthy then
      .ok (element.append
        (.elem "a".toList [("href".toList, "https://github.com/".toList ++ val.toStr)]
          [.text "[github]".toList]), false)
    else .ok (element, false)
  | .rawInject =>
    match h.assign element val with
    | .error e => .error e
    | .ok element => .ok (element, false)

/-- The target and the text of the link of a listing row. -/
def rowLink : Node → Option (Str × Str)
  | .elem _ _ [.elem _ _ [.elem _ a [.text t]]] => (getAttr a "href".toList).map (fun x => (x, t))
  | _ => none

/-- The `href` of the element a call of the handler leaves, when it returns. -/
def hrefOf : Except JsError (Node × Bool) → Option Str
  | .ok (e, _) => getAttr e.attrs "href".toList
  | .error _ => none

/-- A breadcrumb link with the given content. -/
def crumbLink (s : String) : Node :=
  .elem "a".toList [("class".toList, "breadcrumb".toList)] [.text s.toList]

/-- A parent with three breadcrumb links, the third one being the element that is bound. -/
def crumbParent : Node := .elem "nav".toList [] [crumbLink "a", crumbLink "b", crumbLink "x"]

/-- The `href` of each copy the list binding of the examples makes of a breadcrumb link. -/
def stampedHrefs (vals : List String) : List (Option Str) :=
  match stamp (weld.map exampleHtml) (fun mid => .elem "nav".toList [] mid) (crumbLink "") []
      (vals.map (fun s => Val.str s.toList)) [] with
  | .ok copies => copies.map (fun e => getAttr e.attrs "href".toList)
  | .error _ => []

/-- A `tbody` element of class `ls` with one row. -/
def listElement : Node :=
  .elem "tbody".toList [("class".toList, "ls".toList)] [.elem "tr".toList [] []]

/-- A `time` element of class `date`. -/
def dateElement : Node := .elem "time".toList [("class".toList, "date".toList)] []

/-! ## Observations on trees, pages and runs -/

mutual
/-- Whether every `meta[name=keywords]` element of a subtree has the `content` attribute `v`. -/
def keywordsSetN (v : Str) : Node → Bool
  | .text _ => true
  | .elem t a cs =>
    (if t = "meta".toList ∧ getAttr a "name".toList = some "keywords".toList
      then getAttr a "content".toList == some v else true) && keywordsSetL v cs
/-- Whether every `meta[name=keywords]` element of a forest has the `content` attribute `v`. -/
def keywordsSetL (v : Str) : List Node → Bool
  | [] => true
  | n :: ns => keywordsSetN v n && keywordsSetL v ns
end

/-- The tags of a list, each distinct tag once, at its first place. -/
def distinctTags : List Str → List Str
  | [] => []
  | t :: r => t :: (distinctTags r).filter (fun x => x != t)

/-- The keywords as the union of the page's tags and the global tags, joined with commas: page
tags first, each distinct tag once. -/
def keywordsUnion (own global : List Str) : Str := joinWith [','] (distinctTags (own ++ global))

/-- The tags of the page's metadata, none when the metadata or its tags are absent. -/
def ownTags (metadata : Option Metadata) : List Str :=
  match metadata with
  | none => []
  | some m => m.tags.getD []

/-- The content of the page a run of the loop body leaves, when it returns. -/
def contentOf : Except (JsError × Page) (Node × Page) → Option Str
  | .ok (_, p) => p.content
  | .error _ => none

/-- Rendering a page, then rendering the record that results once more. -/
def weldTwice {T : Type} (d : Docs T) (dom : Node) (i : Str) (page : Page) :
    Except (JsError × Page) (Node × Page) :=
  match weldPage d dom i page with
  | .ok (dom1, page1) => weldPage d dom1 i page1
  | .error e => .error e

/-- Whether the tree a run of the loop body leaves, when it returns, holds a date block. -/
def leavesDateBlock : Except (JsError × Page) (Node × Page) → Bool
  | .ok (tree, _) => hasDateBlockL false tree.children
  | .error _ => false

/-- An article without a date whose title is markup: a `#metadata .date` element with three
elements above it. -/
def exampleDateTitled : Page where
  content := some "text".toList
  metadata := some
    { title := .str ("<div id=\"metadata\"><p><b><i><span class=\"date\">x</span></i></b></p>" ++
        "</div>").toList,
      date := .undefined, author := none, tags := none, breadcrumb := none }
  ls := none

/-- The exception a run of `content.weld` ends with, if any. -/
def failureOf : Except JsError Node → Option JsError
  | .ok _ => none
  | .error e => some e

/-- A directory with metadata and without content. -/
def exampleSection : Page where
  content := none
  metadata := some
    { title := .str "Docs".toList, date := .undefined, author := none, tags := none,
      breadcrumb := some ["docs".toList] }
  ls := some ["pages/x.md".toList]

/-- An article whose date is no date. -/
def exampleBadPost : Page where
  content := some "draft".toList
  metadata := some
    { title := .str "Draft".toList, date := .str "not a date".toList, author := none,
      tags := none, breadcrumb := none }
  ls := none

/-- An article whose author id is the name of a property the registry object inherits. -/
def exampleCtorPost : Page where
  content := some "text".toList
  metadata := some
    { title := .str "Ctor".toList, date := .undefined, author := some (.id "constructor".toList),
      tags := none, breadcrumb := none }
  ls := none

/-- Metadata with the tag `node`, which is also a global tag of the examples. -/
def exampleTagged : Metadata :=
  { title := .undefined, date := .undefined, author := none, tags := some ["node".toList],
    breadcrumb := none }

/-- The tree and the page record that rendering the example article leaves. -/
def exampleRendered : Node × Page :=
  match weldPage exampleDocs exampleDom exampleKey examplePost with
  | .ok r => r
  | .error _ => (exampleDom, examplePost)

/-- The tree and the page record that rendering the example directory leaves. -/
def exampleRenderedDir : Node × Page :=
  match weldPage exampleDocs exampleDom "/src/articles".toList exampleDir with
  | .ok r => r
  | .error _ => (exampleDom, exampleDir)

/-- The replacement, cut anywhere, is not comparable with the pattern. -/
def Incomparable (pat rep : Str) : Prop :=
  ∀ j, j < rep.length → ¬ (pat <+: rep.drop j) ∧ ¬ (rep.drop j <+: pat)

/-! ## The global replacement -/

theorem replaceAllAux_skip (pat rep : Str) (xs r : Str) :
    replaceAllAux pat rep xs.length (xs ++ r) = replaceAllAux pat rep 0 r := by
  induction xs with
  | nil => rfl
  | cons x xs ih => simpa [replaceAllAux] using ih

theorem replaceAll_match (pat rep r : Str) (hp : pat ≠ []) :
    replaceAll pat rep (pat ++ r) = rep ++ replaceAll pat rep r := by
  cases pat with
  | nil => exact absurd rfl hp
  | cons p ps =>
    have h1 : (p :: ps).isPrefixOf (p :: (ps ++ r)) = true := by
      rw [List.isPrefixOf_iff_prefix]
      exact ⟨r, rfl⟩
    show replaceAllAux (p :: ps) rep 0 (p :: (ps ++ r)) = _
    rw [replaceAllAux, if_pos h1, if_neg hp]
    simp only [List.length_cons, Nat.add_sub_cancel]
    rw [replaceAllAux_skip]
    rfl

theorem replaceAll_step (pat rep : Str) (c : Char) (cs : Str) (h : ¬ pat <+: c :: cs) :
    replaceAll pat rep (c :: cs) = c :: replaceAll pat rep cs := by
  have h1 : ¬ (pat.isPrefixOf (c :: cs) = true) := by
    rw [List.isPrefixOf_iff_prefix]
    exact h
  show replaceAllAux pat rep 0 (c :: cs) = _
  rw [replaceAllAux, if_neg h1]
  rfl

theorem replaceAll_nil (pat rep : Str) (hp : pat ≠ []) : replaceAll pat rep [] = [] := by
  show replaceAllAux pat rep 0 [] = _
  rw [replaceAllAux, if_neg hp]

/-- A text free of the first character of the pattern that starts the output starts the input. -/
theorem prefix_of_prefix_replaceAll (a : Char) (q rep' : Str) :
    ∀ (t s : Str), a ∉ t → t <+: replaceAll (a :: q) (a :: rep') s → t <+: s
  | [], _, _, _ => List.nil_prefix
  | x :: t, [], _, h => by
    rw [replaceAll_nil _ _ (by simp)] at h
    exact h
  | x :: t, c :: cs, ha, h => by
    have hx : x ≠ a := fun e => ha (by simp [e])
    have ht : a ∉ t := fun m => ha (List.mem_cons_of_mem _ m)
    by_cases hm : (a :: q) <+: c :: cs
    · obtain ⟨r, hr⟩ := hm
      rw [← hr, replaceAll_match _ _ _ (by simp)] at h
      obtain ⟨u, hu⟩ := h
      simp only [List.cons_append, List.cons.injEq] at hu
      exact absurd hu.1 hx
    · rw [replaceAll_step _ _ _ _ hm] at h
      obtain ⟨u, hu⟩ := h
      simp only [List.cons_append, List.cons.injEq] at hu
      have := prefix_of_prefix_replaceAll a q rep' t cs ht ⟨u, hu.2⟩
      obtain ⟨v, hv⟩ := this
      exact ⟨v, by simp [hu.1, hv]⟩

/-- An occurrence in `u ++ l` starts inside `u` or lies in `l`. -/
theorem infix_append_cases (p : Str) : ∀ (u l : Str), p <:+: u ++ l →
    (∃ j, j < u.length ∧ p <+: u.drop j ++ l) ∨ p <:+: l
  | [], _, h => Or.inr h
  | x :: u, l, h => by
    rw [List.cons_append, List.infix_cons_iff] at h
    rcases h with h | h
    · exact Or.inl ⟨0, by simp, h⟩
    · rcases infix_append_cases p u l h with ⟨j, hj, hp⟩ | h
      · exact Or.inl ⟨j + 1, by simpa using hj, by simpa using hp⟩
      · exact Or.inr h

theorem not_prefix_drop_append (pat rep l : Str) (h : Incomparable pat rep) (j : Nat)
    (hj : j < rep.length) : ¬ pat <+: rep.drop j ++ l := by
  intro hp
  have h2 : rep.drop j <+: rep.drop j ++ l := List.prefix_append _ _
  rcases List.prefix_or_prefix_of_prefix hp h2 with h3 | h3
  · exact (h j hj).1 h3
  · exact (h j hj).2 h3

/-- No occurrence of the pattern is left when the pattern and the replacement start with the same
character, the pattern has it nowhere else, and the two are incomparable. -/
theorem not_infix_replaceAll (a : Char) (q rep' : Str) (ha : a ∉ q)
    (hi : Incomparable (a :: q) (a :: rep')) :
    ∀ (n : Nat) (s : Str), s.length = n → ¬ (a :: q) <:+: replaceAll (a :: q) (a :: rep') s := by
  intro n
  induction n using Nat.strong_induction_on with
  | _ n ih =>
    intro s hs
    cases s with
    | nil =>
      rw [replaceAll_nil _ _ (by simp)]
      intro h
      simpa using List.eq_nil_of_infix_nil h
    | cons c cs =>
      by_cases hm : (a :: q) <+: c :: cs
      · obtain ⟨r, hr⟩ := hm
        rw [← hr, replaceAll_match _ _ _ (by simp)]
        intro h
        have hlen : r.length < n := by
          have := congrArg List.length hr
          simp at this
          simp at hs
          omega
        rcases infix_append_cases _ _ _ h with ⟨j, hj, hp⟩ | h
        · exact not_prefix_drop_append _ _ _ hi j hj hp
        · exact ih r.length hlen r rfl h
      · rw [replaceAll_step _ _ _ _ hm, List.infix_cons_iff]
        intro h
        rcases h with h | h
        · apply hm
          obtain ⟨u, hu⟩ := h
          simp only [List.cons_append, List.cons.injEq] at hu
          have := prefix_of_prefix_replaceAll a q rep' q cs ha ⟨u, hu.2⟩
          obtain ⟨v, hv⟩ := this
          exact ⟨v, by simp [← hu.1, hv]⟩
        · exact ih cs.length (by simp at hs; omega) cs rfl h

theorem joinWith_cons_cons (sep : Str) (c : Char) (s : Str) (tl : List Str) :
    joinWith sep ((c :: s) :: tl) = c :: joinWith sep (s :: tl) := by
  cases tl <;> simp [joinWith]

theorem prefix_joinWith (sep s : Str) (tl : List Str) : s <+: joinWith sep (s :: tl) := by
  cases tl with
  | nil => exact List.prefix_rfl
  | cons t r => exact ⟨sep ++ joinWith sep (t :: r), by simp [joinWith]⟩

/-- A text free of `a` that starts `s ++ a :: r` starts `s`. -/
theorem prefix_before (a : Char) : ∀ (s t r : Str), a ∉ t → t <+: s ++ a :: r → t <+: s
  | _, [], _, _, _ => List.nil_prefix
  | [], x :: t, r, ha, h => by
    obtain ⟨u, hu⟩ := h
    simp only [List.cons_append, List.nil_append, List.cons.injEq] at hu
    exact absurd hu.1 (fun e => ha (by simp [e]))
  | y :: s, x :: t, r, ha, h => by
    obtain ⟨u, hu⟩ := h
    simp only [List.cons_append, List.cons.injEq] at hu
    have := prefix_before a s t r (fun m => ha (List.mem_cons_of_mem _ m)) ⟨u, hu.2⟩
    obtain ⟨v, hv⟩ := this
    exact ⟨v, by simp [hu.1, hv]⟩

/-- The scan copies a text free of the pattern that is followed by nothing or by a match. -/
theorem replaceAll_free_append (a : Char) (q rep : Str) (ha : a ∉ q) (rest : Str)
    (hrest : rest = [] ∨ ∃ r, rest = (a :: q) ++ r) :
    ∀ (s : Str), ¬ (a :: q) <:+: s →
      replaceAll (a :: q) rep (s ++ rest) = s ++ replaceAll (a :: q) rep rest
  | [], _ => rfl
  | c :: s, hs => by
    have hs' : ¬ (a :: q) <:+: s := fun h => hs (List.infix_cons h)
    have hno : ¬ (a :: q) <+: c :: (s ++ rest) := by
      intro hp
      rcases hrest with h0 | ⟨r, hr⟩
      · rw [h0, List.append_nil] at hp
        exact hs hp.isInfix
      · obtain ⟨u, hu⟩ := hp
        simp only [List.cons_append, List.cons.injEq] at hu
        have h1 : q <+: s ++ a :: (q ++ r) := ⟨u, by rw [hu.2, hr]; rfl⟩
        have h2 := prefix_before a s q (q ++ r) ha h1
        obtain ⟨v, hv⟩ := h2
        exact hs (List.IsPrefix.isInfix ⟨v, by simp [← hu.1, hv]⟩)
    rw [List.cons_append, replaceAll_step _ _ _ _ hno, replaceAll_free_append a q rep ha rest hrest s hs']
    rfl

/-- Pieces free of the pattern, joined by the pattern, come out joined by the replacement. -/
theorem replaceAll_joinWith (a : Char) (q rep : Str) (ha : a ∉ q) :
    ∀ (segs : List Str), (∀ s ∈ segs, ¬ (a :: q) <:+: s) →
      replaceAll (a :: q) rep (joinWith (a :: q) segs) = joinWith rep segs
  | [], _ => replaceAll_nil _ _ (by simp)
  | [s], h => by
    have := replaceAll_free_append a q rep ha [] (Or.inl rfl) s (h s (by simp))
    simpa [joinWith, replaceAll_nil] using this
  | s :: t :: r, h => by
    have h1 := replaceAll_free_append a q rep ha ((a :: q) ++ joinWith (a :: q) (t :: r))
      (Or.inr ⟨_, rfl⟩) s (h s (by simp))
    have h2 := replaceAll_joinWith a q rep ha (t :: r) (fun x hx => h x (List.mem_cons_of_mem _ hx))
    rw [joinWith, List.append_assoc, h1, replaceAll_match _ _ _ (by simp), h2]
    simp [joinWith]

/-- Every text is made of pieces free of the pattern, joined by the pattern. -/
theorem exists_pieces (pat : Str) (hp : pat ≠ []) :
    ∀ (n : Nat) (s : Str), s.length = n →
      ∃ segs : List Str, segs ≠ [] ∧ (∀ x ∈ segs, ¬ pat <:+: x) ∧ s = joinWith pat segs := by
  intro n
  induction n using Nat.strong_induction_on with
  | _ n ih =>
    intro s hs
    cases s with
    | nil =>
      refine ⟨[[]], by simp, ?_, rfl⟩
      intro x hx h
      simp only [List.mem_singleton] at hx
      subst hx
      exact hp (List.eq_nil_of_infix_nil h)
    | cons c cs =>
      by_cases hm : pat <+: c :: cs
      · obtain ⟨r, hr⟩ := hm
        have hlen : r.length < n := by
          have := congrArg List.length hr
          have hpl : 0 < pat.length := List.length_pos.mpr hp
          simp at this
          simp at hs
          omega
        obtain ⟨segs, hne, hfree, hj⟩ := ih r.length hlen r rfl
        cases segs with
        | nil => exact absurd rfl hne
        | cons s0 tl =>
          refine ⟨[] :: s0 :: tl, by simp, ?_, ?_⟩
          · intro x hx
            rcases List.mem_cons.mp hx with h | h
            · subst h
              intro h
              exact hp (List.eq_nil_of_infix_nil h)
            · exact hfree x h
          · rw [← hr, hj]
            simp [joinWith]
      · obtain ⟨segs, hne, hfree, hj⟩ := ih cs.length (by simp at hs; omega) cs rfl
        cases segs with
        | nil => exact absurd rfl hne
        | cons s0 tl =>
          refine ⟨(c :: s0) :: tl, by simp, ?_, ?_⟩
          · intro x hx
            rcases List.mem_cons.mp hx with h | h
            · subst h
              rw [List.infix_cons_iff]
              intro h
              rcases h with h | h
              · apply hm
                have h3 : c :: s0 <+: c :: cs := by
                  rw [hj]
                  exact (List.prefix_cons_inj c).mpr (prefix_joinWith pat s0 tl)
                exact h.trans h3
              · exact hfree s0 (by simp) h
            · exact hfree x (List.mem_cons_of_mem _ h)
          · rw [joinWith_cons_cons, ← hj]

/-- The bungled highlight starts with an ampersand and has no other. -/
theorem defect_shape : ∃ q, defect = '&' :: q ∧ '&' ∉ q :=
  ⟨defect.tail, by decide, by decide⟩

theorem gtEntity_shape : ∃ r, gtEntity = '&' :: r := ⟨gtEntity.tail, by decide⟩

theorem defect_incomparable : Incomparable defect gtEntity := by
  intro j hj
  have hj' : j < 4 := hj
  interval_cases j <;> exact ⟨by decide, by decide⟩

/-- What the repair does to every text. -/
theorem repairGt_spec (h : Str) :
    (∀ segs : List Str, (∀ s ∈ segs, ¬ defect <:+: s) → h = joinWith defect segs →
        repairGt h = joinWith gtEntity segs) ∧
    (∃ segs : List Str, (∀ s ∈ segs, ¬ defect <:+: s) ∧ h = joinWith defect segs) ∧
    ¬ defect <:+: repairGt h := by
  obtain ⟨q, hq, ha⟩ := defect_shape
  obtain ⟨r, hr⟩ := gtEntity_shape
  refine ⟨?_, ?_, ?_⟩
  · intro segs hfree hj
    unfold repairGt
    rw [hj, hq]
    rw [hq] at hfree
    exact replaceAll_joinWith '&' q gtEntity ha segs hfree
  · obtain ⟨segs, _, hfree, hj⟩ := exists_pieces defect (by decide) h.length h rfl
    exact ⟨segs, hfree, hj⟩
  · have hi := defect_incomparable
    unfold repairGt
    rw [hq, hr] at *
    exact not_infix_replaceAll '&' q r ha hi h.length h rfl

/-! ## C1: the repair of the highlighter's output -/

theorem failWith_ok {α : Type} (page : Page) (x : Except JsError α) (a : α) (h : x = .ok a) :
    failWith page x = .ok a := by
  subst h
  rfl

/-- C1, amended. When the preparation of a page returns and the highlighter returns `h`, the
markup assigned to `dom.innerHTML` is `repairGt h`, and the page content at the end of
`content.weld` is what the tree gives back for it, which is `repairGt h` itself when the tree
gives back the markup it is assigned. The text `repairGt h` is `h` with each piece between
occurrences of the bungled highlight kept and each occurrence replaced by `&gt;`, whatever way
`h` is cut into such pieces; such a cut exists; and no occurrence of the bungled highlight is
left in it. -/
theorem weld_highlighter_repair {T : Type} (d : Docs T) (dom : Node) (i : Str) (page page1 : Page)
    (tree : Node) (h : Str)
    (hprep : prepare d dom i page = .ok (tree, page1))
    (hhl : d.hl (d.html.html tree) = .ok h) :
    weldPage d dom i page =
        .ok (d.html.setInnerHTML tree (repairGt h),
          { page1 with
            content := some (d.html.html (d.html.setInnerHTML tree (repairGt h))) }) ∧
    (d.html.html (d.html.setInnerHTML tree (repairGt h)) = repairGt h →
      contentOf (weldPage d dom i page) = some (repairGt h)) ∧
    (∀ segs : List Str, (∀ s ∈ segs, ¬ defect <:+: s) → h = joinWith defect segs →
        repairGt h = joinWith gtEntity segs) ∧
    (∃ segs : List Str, (∀ s ∈ segs, ¬ defect <:+: s) ∧ h = joinWith defect segs) ∧
    ¬ defect <:+: repairGt h := by
  have hl : highlight d tree = .ok (d.html.setInnerHTML tree (repairGt h)) := by
    simp only [highlight, hhl]
    rfl
  have hw : weldPage d dom i page =
      .ok (d.html.setInnerHTML tree (repairGt h),
        { page1 with
          content := some (d.html.html (d.html.setInnerHTML tree (repairGt h))) }) := by
    unfold weldPage
    rw [hprep]
    simp only [bind, Except.bind, pure, Except.pure, failWith_ok _ _ _ hl]
  refine ⟨hw, ?_, repairGt_spec h⟩
  intro hdom
  rw [hw, contentOf, hdom]

set_option maxRecDepth 100000 in
theorem weld_highlighter_repair_witness :
    defect <:+: exampleHighlighted ∧
    contentOf (weldPage exampleDocs exampleDom exampleKey examplePost) =
      some (repairGt exampleHighlighted) ∧
    ¬ defect <:+: repairGt exampleHighlighted :=
  have w := weld_highlighter_repair exampleDocs exampleDom exampleKey examplePost
    examplePrepared.2 exampleTree exampleHighlighted (by rfl) (by rfl)
  ⟨by decide, w.2.1 (by decide), w.2.2.2.2⟩

set_option maxRecDepth 100000 in
/-- C1 as stated fails: the highlighter returns a text in which the `span` tag has two blanks
before `class`. The bungled highlight does not occur in it, so the text with every occurrence
replaced is the text itself; the page content at the end is another text, the one the tree gives
back, and the bungled highlight occurs in it. -/
theorem weld_highlighter_counterexample :
    (∀ s, spacedDocs.hl s = .ok spacedHighlight) ∧
    ¬ defect <:+: spacedHighlight ∧
    repairGt spacedHighlight = spacedHighlight ∧
    contentOf (weldPage spacedDocs exampleDom exampleKey examplePost) =
      some "<p>x</p>&amp;<span class=\"identifier\">gt</span>;".toList ∧
    "<p>x</p>&amp;<span class=\"identifier\">gt</span>;".toList ≠ spacedHighlight ∧
    defect <:+: "<p>x</p>&amp;<span class=\"identifier\">gt</span>;".toList := by
  refine ⟨fun _ => rfl, by decide, by decide, by rfl, by decide, by decide⟩

/-! ## C2: the path a page is written to -/

theorem splitFirst_append (pat rest : Str) : splitFirst pat (pat ++ rest) = some ([], rest) := by
  have hp : pat.isPrefixOf (pat ++ rest) = true := by
    rw [List.isPrefixOf_iff_prefix]
    exact List.prefix_append _ _
  cases hs : pat ++ rest with
  | nil =>
    have h1 : pat = [] := (List.append_eq_nil.mp hs).1
    have h2 : rest = [] := (List.append_eq_nil.mp hs).2
    subst h1 h2
    rfl
  | cons c cs =>
    rw [hs] at hp
    rw [splitFirst, if_pos hp, ← hs]
    simp

theorem getSubstitution_plain (matched before after : Str) :
    ∀ (rep : Str), '$' ∉ rep → getSubstitution matched before after rep = rep
  | [], _ => rfl
  | [_], _ => rfl
  | c :: d :: r, h => by
    have hc : c ≠ '$' := fun e => h (by simp [e])
    rw [getSubstitution, if_neg hc,
      getSubstitution_plain matched before after (d :: r) (fun m => h (List.mem_cons_of_mem _ m))]

/-- With a resolved destination root free of dollar signs, the resolved source root at the start
of the key gives way to the resolved destination root. -/
theorem newPath_of_plain_destination {T : Type} (d : Docs T) (rest : Str)
    (hplain : '$' ∉ d.resolve d.dst) :
    newPath d (d.resolve d.src ++ rest) =
      d.normalize (d.resolve d.dst ++ rest ++ "/index.html".toList) := by
  simp only [newPath, replace, splitFirst_append, getSubstitution_plain _ _ _ _ hplain]
  simp

theorem newPath_of_plain_destination_witness :
    newPath exampleDocs "/src/foo/bar".toList = "/out/foo/bar/index.html".toList :=
  newPath_of_plain_destination exampleDocs "/foo/bar".toList (by decide)

/-- C2, at a destination root with dollar signs. For the source root `/src`, the destination root
`/out/$$` and the page key `/src/foo/bar`, the file written is `/out/$/foo/bar/index.html`: the
replacement text of `String.prototype.replace` is expanded, so `$$` comes out as one dollar sign,
and the destination prefix of the path is not the resolved destination root. -/
theorem generate_dollar_destination :
    dollarDocs.resolve dollarDocs.src ++ "/foo/bar".toList = "/src/foo/bar".toList ∧
    generate dollarDocs [("/src/foo/bar".toList, examplePost)] =
      [("/out/$/foo/bar/index.html".toList, examplePost.content)] ∧
    dollarDocs.normalize
        (dollarDocs.resolve dollarDocs.dst ++ "/foo/bar".toList ++ "/index.html".toList) =
      "/out/$$/foo/bar/index.html".toList := by
  decide

/-! ## C3: the listing rule -/

theorem replace_strip (pat r : Str) : replace (pat ++ r) pat [] = r := by
  simp [replace, splitFirst_append, getSubstitution]

theorem splitFirst_absent (pat : Str) : ∀ (s : Str), ¬ pat <:+: s → splitFirst pat s = none
  | [], h => by
    have hp : ¬ (pat.isPrefixOf [] = true) := by
      rw [List.isPrefixOf_iff_prefix]
      exact fun hp => h hp.isInfix
    rw [splitFirst, if_neg hp]
  | c :: cs, h => by
    have hp : ¬ (pat.isPrefixOf (c :: cs) = true) := by
      rw [List.isPrefixOf_iff_prefix]
      exact fun hp => h hp.isInfix
    rw [splitFirst, if_neg hp, splitFirst_absent pat cs (fun hi => h (List.infix_cons hi))]
    rfl

theorem replace_absent (s pat rep : Str) (h : ¬ pat <:+: s) : replace s pat rep = s := by
  simp [replace, splitFirst_absent pat s h]

/-- The leftmost occurrence is the one found: when the pattern does not occur in `pre` followed by
all but the last character of the pattern, the scan stops after `pre`. -/
theorem splitFirst_leftmost (pat post : Str) (hp : pat ≠ []) :
    ∀ (pre : Str), ¬ pat <:+: pre ++ pat.dropLast →
      splitFirst pat (pre ++ pat ++ post) = some (pre, post)
  | [], _ => by simpa using splitFirst_append pat post
  | c :: pre, h => by
    have hno : ¬ (pat.isPrefixOf (c :: (pre ++ pat ++ post)) = true) := by
      rw [List.isPrefixOf_iff_prefix]
      intro hpre
      apply h
      have hlen : pat.length ≤ ((c :: pre) ++ pat.dropLast).length := by
        have : 0 < pat.length := List.length_pos.mpr hp
        simp
        omega
      have h2 : (c :: pre) ++ pat.dropLast <+: c :: (pre ++ pat ++ post) := by
        obtain ⟨u, hu⟩ : pat.dropLast <+: pat := List.dropLast_prefix pat
        refine ⟨u ++ post, ?_⟩
        generalize pat.dropLast = q at hu
        rw [← hu]
        simp
      exact (List.prefix_of_prefix_length_le hpre h2 hlen).isInfix
    have ih := splitFirst_leftmost pat post hp pre (fun hi => h (by
      rw [List.cons_append]
      exact List.infix_cons hi))
    simp only [List.cons_append, List.append_assoc] at *
    rw [splitFirst, if_neg hno, ih]
    rfl

theorem takeWhile_append_stop {p : Char → Bool} (a : Char) (r : Str) (ha : p a = false) :
    ∀ (l : Str), (∀ x ∈ l, p x = true) → List.takeWhile p (l ++ a :: r) = l
  | [], _ => by simp [List.takeWhile, ha]
  | x :: l, h => by
    have hx : p x = true := h x (by simp)
    simp only [List.cons_append, List.takeWhile_cons, hx, if_true]
    rw [takeWhile_append_stop a r ha l (fun y hy => h y (List.mem_cons_of_mem _ hy))]

theorem basename_segment (dir name : Str) (hne : name ≠ []) (hs : '/' ∉ name) :
    basename (dir ++ '/' :: name) = name := by
  unfold basename
  have hrev : (dir ++ '/' :: name).reverse = name.reverse ++ '/' :: dir.reverse := by simp
  rw [hrev]
  cases hn : name.reverse with
  | nil => exact absurd (List.reverse_eq_nil_iff.mp hn) hne
  | cons x xs =>
    have hmem : ∀ y ∈ x :: xs, y ≠ '/' := by
      intro y hy e
      rw [← hn, List.mem_reverse] at hy
      exact hs (e ▸ hy)
    have hx : (x == '/') = false := by simpa using hmem x (by simp)
    have hd : List.dropWhile (fun c => c == '/') (x :: (xs ++ '/' :: dir.reverse)) =
        x :: xs ++ '/' :: dir.reverse := by
      simp [List.dropWhile_cons, hx]
    rw [List.cons_append, hd,
      takeWhile_append_stop '/' dir.reverse (by decide) (x :: xs)
        (fun y hy => by simpa using hmem y hy), ← hn, List.reverse_reverse]

/-- C3, amended. For an element of class `ls` (and not of class `breadcrumb`) and a path `val`,
the handler puts in place of the rows of the element the row `tr.ls > td > a`, whose link has the
text `basename val` and the target `val` with the leftmost occurrence of `pages/` removed: the
prefix when `val` starts with it, an occurrence further in otherwise, and nothing when `pages/`
does not occur. The text is the final segment of the path. For the listing `pages/x.md`,
`pages/y/z.md` the rows are titled `x.md` and `z.md` with targets `x.md` and `y/z.md`. -/
theorem listing_rule (h : Html) (parent element : Node) (key val : Str)
    (hbc : hasClass element "breadcrumb".toList = false)
    (hls : hasClass element "ls".toList = true) :
    weld.map h parent element key (.str val) = .ok (replaceRows (listingRow val) element, false) ∧
    listingRow val =
      .elem "tr".toList [("class".toList, "ls".toList)]
        [.elem "td".toList []
          [.elem "a".toList [("href".toList, replace val "pages/".toList [])]
            [.text (basename val)]]] ∧
    (∀ r, val = "pages/".toList ++ r → replace val "pages/".toList [] = r) ∧
    (∀ pre post, val = pre ++ "pages/".toList ++ post → ¬ "pages/".toList <:+: pre ++ "pages".toList →
      replace val "pages/".toList [] = pre ++ post) ∧
    (¬ "pages/".toList <:+: val → replace val "pages/".toList [] = val) ∧
    (∀ dir name, val = dir ++ '/' :: name → name ≠ [] → '/' ∉ name → basename val = name) ∧
    ('/' ∉ val → basename val = val) ∧
    List.map (fun v => rowLink (listingRow v)) ["pages/x.md".toList, "pages/y/z.md".toList] =
      [some ("x.md".toList, "x.md".toList), some ("y/z.md".toList, "z.md".toList)] := by
  refine ⟨?_, rfl, ?_, ?_, ?_, ?_, ?_, by decide⟩
  · unfold weld.map
    rw [hbc, hls]
    rfl
  · intro r hr
    rw [hr, replace_strip]
  · intro pre post hv hfirst
    have := splitFirst_leftmost "pages/".toList post (by decide) pre hfirst
    rw [hv]
    unfold replace
    rw [this]
    simp [getSubstitution]
  · exact replace_absent _ _ _
  · intro dir name hv hne hs
    rw [hv]
    exact basename_segment dir name hne hs
  · intro hs
    unfold basename
    cases hv : val.reverse with
    | nil =>
      have : val = [] := List.reverse_eq_nil_iff.mp hv
      simp [this]
    | cons x xs =>
      have hmem : ∀ y ∈ x :: xs, y ≠ '/' := by
        intro y hy e
        rw [← hv, List.mem_reverse] at hy
        exact hs (e ▸ hy)
      have hx : (x == '/') = false := by simpa using hmem x (by simp)
      have hd : List.dropWhile (fun c => c == '/') (x :: xs) = x :: xs := by
        simp [List.dropWhile_cons, hx]
      have ht : List.takeWhile (fun c => c != '/') (x :: xs) = x :: xs := by
        rw [List.takeWhile_eq_self_iff]
        intro y hy
        simpa using hmem y hy
      rw [hd, ht, ← hv, List.reverse_reverse]

theorem listing_rule_witness :
    weld.map exampleHtml exampleDom
        (.elem "tbody".toList [("class".toList, "ls".toList)] [.elem "tr".toList [] []])
        "ls".toList (.str "pages/y/z.md".toList) =
      .ok (.elem "tbody".toList [("class".toList, "ls".toList)]
        [.elem "tr".toList [("class".toList, "ls".toList)]
          [.elem "td".toList []
            [.elem "a".toList [("href".toList, "y/z.md".toList)] [.text "z.md".toList]]]],
        false) :=
  (listing_rule exampleHtml exampleDom
    (.elem "tbody".toList [("class".toList, "ls".toList)] [.elem "tr".toList [] []])
    "ls".toList "pages/y/z.md".toList (by decide) (by decide)).1

/-- C3 as stated fails: the value `a/pages/x.md` does not start with `pages/`, yet the target of
its row is `a/x.md`, not the value itself. -/
theorem listing_rule_counterexample :
    ¬ "pages/".toList <+: "a/pages/x.md".toList ∧
    rowLink (listingRow "a/pages/x.md".toList) = some ("a/x.md".toList, "x.md".toList) ∧
    "a/x.md".toList ≠ "a/pages/x.md".toList := by
  decide

/-! ## C4: the breadcrumb rule -/

theorem foldl_crumb (h : Html) : ∀ (l : List Node) (acc : Str),
    l.foldl (fun crumb v => crumb ++ '/' :: h.html v) acc =
      acc ++ (l.map (fun v => '/' :: h.html v)).flatten
  | [], acc => by simp
  | v :: l, acc => by
    rw [List.foldl_cons, foldl_crumb h l]
    simp

theorem crumbTrail_eq (h : Html) (parent : Node) :
    crumbTrail h parent =
      ((find (fun e => hasClass e "breadcrumb".toList) parent).map
        (fun e => '/' :: h.html e)).flatten := by
  unfold crumbTrail
  rw [foldl_crumb]
  rfl

/-- C4, amended. For an element of class `breadcrumb` and a string `v`, the handler sets the link
target to the concatenation, in document order, of `/` and the inner HTML of every element of
class `breadcrumb` found below the parent at the time of the call, followed by `/` and `v`, and
sets the content of the element to `v`. When each crumb is bound before it is put into the
parent, as in the binding of a list, those elements are the crumbs bound before: for the values
`a`, `b`, `c` the targets are `/a`, `/a/b` and `/a/b/c`. -/
theorem breadcrumb_rule (h : Html) (parent element : Node) (key v : Str)
    (hbc : hasClass element "breadcrumb".toList = true) :
    weld.map h parent element key (.str v) =
      .ok ((element.setAttr "href".toList
          (((find (fun e => hasClass e "breadcrumb".toList) parent).map
              (fun e => '/' :: h.html e)).flatten ++ '/' :: v)).setChildren (h.parse v),
        false) ∧
    stampedHrefs ["a", "b", "c"] =
      [some "/a".toList, some "/a/b".toList, some "/a/b/c".toList] := by
  refine ⟨?_, by decide⟩
  unfold weld.map
  rw [hbc, crumbTrail_eq]
  rfl

theorem breadcrumb_rule_witness :
    weld.map exampleHtml (.elem "nav".toList [] [crumbLink "a", crumbLink "b"]) (crumbLink "") []
        (.str "c".toList) =
      .ok (.elem "a".toList
        [("class".toList, "breadcrumb".toList), ("href".toList, "/a/b/c".toList)]
        [.text "c".toList], false) :=
  (breadcrumb_rule exampleHtml (.elem "nav".toList [] [crumbLink "a", crumbLink "b"]) (crumbLink "") []
    "c".toList (by decide)).1

/-- C4 as stated fails: in a parent whose children are the breadcrumb links `a`, `b` and `x`, the
third link is bound to `c`. The breadcrumb elements before it are `a` and `b`, yet its target
becomes `/a/b/x/c`, not `/a/b/c`: the content the element itself had is part of the path. -/
theorem breadcrumb_rule_counterexample :
    crumbParent.children = [crumbLink "a", crumbLink "b", crumbLink "x"] ∧
    hrefOf (weld.map exampleHtml crumbParent (crumbLink "x") [] (.str "c".toList)) =
      some "/a/b/x/c".toList ∧
    "/a/b/x/c".toList ≠ "/a/b/c".toList :=
  ⟨rfl, by decide, by decide⟩

/-! ## C5: rendering twice -/

/-- Without metadata the preparation of a page does not look at its markdown. -/
theorem prepare_without_metadata {T : Type} (d : Docs T) (dom : Node) (i : Str) (page : Page)
    (md : Option Str) (hm : page.metadata = none) (hmd : parseContent d page = .ok md) :
    prepare d dom i page =
      (match d.weld (d.html.setInnerHTML dom d.directoryHtml)
          (.directory (d.unresolve d.src i) (page.ls.getD []) d.toc rootCrumb)
          (weld.map d.html) with
        | .error e => .error (e, page)
        | .ok welded => .ok (setKeywords welded (joinWith [','] (d.tags.getD [])), page)) := by
  have hpage : ({ page with metadata := none } : Page) = page := by
    cases page
    simp_all
  have hdec' : ∀ tree, decorate d none tree =
      .ok (setKeywords tree (joinWith [','] (d.tags.getD []))) := fun _ => rfl
  have hview : selectView md none = .directory := by cases md <;> rfl
  have hdata : ∀ p : Page, buildData d i p md none =
      .directory (d.unresolve d.src i) (p.ls.getD []) d.toc rootCrumb := by
    intro p
    cases md <;> rfl
  unfold prepare
  rw [hm]
  simp only [hmd, resolveAuthor, failWith, bind, Except.bind, pure, Except.pure, hpage, hview,
    template, hdata, hdec']
  cases d.weld (d.html.setInnerHTML dom d.directoryHtml)
    (.directory (d.unresolve d.src i) (page.ls.getD []) d.toc rootCrumb) (weld.map d.html) <;> rfl

/-- C5, amended. Rendering is idempotent for a page without metadata: when such a page has been
rendered, the markdown converter accepts the rendered HTML, and the template is assigned to the
same root element, rendering the record once more returns the same tree and the same record,
with the same content. -/
theorem weld_twice_without_metadata {T : Type} (d : Docs T) (dom dom1 : Node) (i : Str)
    (page page1 : Page)
    (hm : page.metadata = none)
    (h1 : weldPage d dom i page = .ok (dom1, page1))
    (hmd : ∃ md, parseContent d page1 = .ok md)
    (hroot : d.html.setInnerHTML dom1 d.directoryHtml = d.html.setInnerHTML dom d.directoryHtml) :
    weldPage d dom1 i page1 = .ok (dom1, page1) := by
  obtain ⟨md1, hmd1⟩ := hmd
  -- the first run
  have hpc : ∃ md, parseContent d page = .ok md := by
    cases hp : parseContent d page with
    | ok md => exact ⟨md, rfl⟩
    | error e =>
      unfold weldPage prepare at h1
      simp [hp, failWith, bind, Except.bind] at h1
  obtain ⟨md, hmd0⟩ := hpc
  have hprep := prepare_without_metadata d dom i page md hm hmd0
  unfold weldPage at h1
  rw [hprep] at h1
  simp only [bind, Except.bind, pure, Except.pure] at h1
  cases hw : d.weld (d.html.setInnerHTML dom d.directoryHtml)
      (.directory (d.unresolve d.src i) (page.ls.getD []) d.toc rootCrumb) (weld.map d.html) with
  | error e => simp [hw] at h1
  | ok welded =>
    simp only [hw] at h1
    cases hh : highlight d (setKeywords welded (joinWith [','] (d.tags.getD []))) with
    | error e => simp [hh, failWith] at h1
    | ok out =>
      simp only [hh, failWith, Except.ok.injEq, Prod.mk.injEq] at h1
      obtain ⟨hdom, hpage⟩ := h1
      subst hdom
      have hm1 : page1.metadata = none := by rw [← hpage]; exact hm
      have hls : page1.ls = page.ls := by rw [← hpage]
      have hprep1 := prepare_without_metadata d out i page1 md1 hm1 hmd1
      unfold weldPage
      rw [hprep1, hroot, hls, hw]
      simp only [bind, Except.bind, pure, Except.pure, hh, failWith]
      rw [← hpage]

set_option maxRecDepth 100000 in
theorem weld_twice_without_metadata_witness :
    weldPage exampleDocs exampleRenderedDir.1 "/src/articles".toList exampleRenderedDir.2 =
      .ok (exampleRenderedDir.1, exampleRenderedDir.2) :=
  weld_twice_without_metadata exampleDocs exampleDom exampleRenderedDir.1 "/src/articles".toList
    exampleDir exampleRenderedDir.2 rfl (by rfl) ⟨_, by rfl⟩ (by rfl)

set_option maxRecDepth 100000 in
/-- C5 as stated fails: a directory with metadata and without content is rendered with the
directory view; rendering the resulting record again finds content and metadata, takes the
article view and the first HTML as markdown, and ends with another content. -/
theorem weld_twice_counterexample :
    contentOf (weldPage exampleDocs exampleDom "/src/docs".toList exampleSection) =
      some ("<title>node docs :: Docs</title><meta name=\"keywords\" content=\"node,docs\">" ++
        "<nav><a class=\"breadcrumb\" href=\"/docs\">docs</a></nav>" ++
        "<table><tbody class=\"ls\"><tr class=\"ls\"><td><a href=\"x.md\">x.md</a></td></tr>" ++
        "</tbody></table>").toList ∧
    (contentOf (weldTwice exampleDocs exampleDom "/src/docs".toList exampleSection)).isSome =
      true ∧
    contentOf (weldTwice exampleDocs exampleDom "/src/docs".toList exampleSection) ≠
      contentOf (weldPage exampleDocs exampleDom "/src/docs".toList exampleSection) := by
  decide

/-! ## C6: pruning for a missing title or date -/

mutual
theorem dateAtN_prune (p : Bool → Node → Bool) : ∀ (n : Node) (b : Bool) (k : Nat),
    dateAtN b k (pruneN p b n) = true → dateAtN b k n = true
  | .text _, _, _ => by
    intro h
    simp [pruneN, dateAtN] at h
  | .elem t a cs, b, k => by
    intro h
    cases k with
    | zero => simpa [pruneN, dateAtN, hasClass, Node.attrs] using h
    | succ k =>
      simp only [pruneN, dateAtN] at h ⊢
      exact dateAtL_prune p cs _ k h
theorem dateAtL_prune (p : Bool → Node → Bool) : ∀ (l : List Node) (b : Bool) (k : Nat),
    dateAtL b k (pruneL p b l) = true → dateAtL b k l = true
  | [], _, _ => by
    intro h
    simp [pruneL, dateAtL] at h
  | n :: ns, b, k => by
    intro h
    simp only [pruneL] at h
    simp only [dateAtL, Bool.or_eq_true]
    split at h
    · exact Or.inr (dateAtL_prune p ns b k h)
    · simp only [dateAtL, Bool.or_eq_true] at h
      rcases h with h | h
      · exact Or.inl (dateAtN_prune p n b k h)
      · exact Or.inr (dateAtL_prune p ns b k h)
end

mutual
theorem hasDateBlockN_prune : ∀ (n : Node) (b : Bool), isDateBlock b n = false →
    hasDateBlockN b (pruneN isDateBlock b n) = false
  | .text _, _, _ => by simp [pruneN, hasDateBlockN]
  | .elem t a cs, b, h => by
    simp only [pruneN, hasDateBlockN, Bool.or_eq_false_iff]
    refine ⟨?_, hasDateBlockL_prune cs _⟩
    cases hk : isDateBlock b (.elem t a (pruneL isDateBlock (b || isMetadataId a) cs)) with
    | false => rfl
    | true =>
      have := dateAtN_prune isDateBlock (.elem t a cs) b 3 (by simpa [pruneN, isDateBlock] using hk)
      simp only [isDateBlock] at h
      rw [h] at this
      exact absurd this (by decide)
theorem hasDateBlockL_prune : ∀ (l : List Node) (b : Bool),
    hasDateBlockL b (pruneL isDateBlock b l) = false
  | [], _ => by simp [pruneL, hasDateBlockL]
  | n :: ns, b => by
    simp only [pruneL]
    split
    · exact hasDateBlockL_prune ns b
    · rename_i hn
      simp only [hasDateBlockL, Bool.or_eq_false_iff]
      exact ⟨hasDateBlockN_prune n b (by simpa using hn), hasDateBlockL_prune ns b⟩
end

mutual
theorem hasMetaTitleN_prune (p : Bool → Node → Bool) : ∀ (n : Node) (b : Bool),
    hasMetaTitleN b (pruneN p b n) = true → hasMetaTitleN b n = true
  | .text _, _, h => by simp [pruneN, hasMetaTitleN] at h
  | .elem t a cs, b, h => by
    simp only [pruneN, hasMetaTitleN, Bool.or_eq_true] at h ⊢
    rcases h with h | h
    · exact Or.inl (by simpa [isMetaTitle, hasClass, Node.attrs] using h)
    · exact Or.inr (hasMetaTitleL_prune p cs _ h)
theorem hasMetaTitleL_prune (p : Bool → Node → Bool) : ∀ (l : List Node) (b : Bool),
    hasMetaTitleL b (pruneL p b l) = true → hasMetaTitleL b l = true
  | [], _, h => by simp [pruneL, hasMetaTitleL] at h
  | n :: ns, b, h => by
    simp only [pruneL] at h
    simp only [hasMetaTitleL, Bool.or_eq_true]
    split at h
    · exact Or.inr (hasMetaTitleL_prune p ns b h)
    · simp only [hasMetaTitleL, Bool.or_eq_true] at h
      rcases h with h | h
      · exact Or.inl (hasMetaTitleN_prune p n b h)
      · exact Or.inr (hasMetaTitleL_prune p ns b h)
end

mutual
theorem hasMetaTitleN_removed : ∀ (n : Node) (b : Bool), isMetaTitle b n = false →
    hasMetaTitleN b (pruneN isMetaTitle b n) = false
  | .text _, _, _ => by simp [pruneN, hasMetaTitleN]
  | .elem t a cs, b, h => by
    simp only [pruneN, hasMetaTitleN, Bool.or_eq_false_iff]
    exact ⟨by simpa [isMetaTitle, hasClass, Node.attrs] using h, hasMetaTitleL_removed cs _⟩
theorem hasMetaTitleL_removed : ∀ (l : List Node) (b : Bool),
    hasMetaTitleL b (pruneL isMetaTitle b l) = false
  | [], _ => by simp [pruneL, hasMetaTitleL]
  | n :: ns, b => by
    simp only [pruneL]
    split
    · exact hasMetaTitleL_removed ns b
    · rename_i hn
      simp only [hasMetaTitleL, Bool.or_eq_false_iff]
      exact ⟨hasMetaTitleN_removed n b (by simpa using hn), hasMetaTitleL_removed ns b⟩
end

theorem removeDateBlock_clean (dom : Node) :
    hasDateBlockL false (removeDateBlock dom).children = false := by
  cases dom with
  | text s => rfl
  | elem t a cs => exact hasDateBlockL_prune cs false

theorem removeTitle_clean (dom : Node) :
    hasMetaTitleL false (removeTitle dom).children = false := by
  cases dom with
  | text s => rfl
  | elem t a cs => exact hasMetaTitleL_removed cs false

theorem removeDateBlock_keeps_clean (dom : Node)
    (h : hasMetaTitleL false dom.children = false) :
    hasMetaTitleL false (removeDateBlock dom).children = false := by
  cases dom with
  | text s => rfl
  | elem t a cs =>
    cases hk : hasMetaTitleL false (removeDateBlock (.elem t a cs)).children with
    | false => rfl
    | true =>
      have := hasMetaTitleL_prune isDateBlock cs false hk
      simp only [Node.children] at h
      rw [h] at this
      exact absurd this (by decide)

mutual
theorem outlineN_prune (p : Bool → Node → Bool) : ∀ (n : Node) (b : Bool) (k : Nat),
    outlineN k (pruneN p b n) = outsideN p b k n
  | .text _, _, _ => by simp [pruneN, outlineN, outsideN]
  | .elem t a cs, b, k => by
    simp only [pruneN, outlineN, outsideN]
    rw [outlineL_prune p cs _ (k + 1)]
theorem outlineL_prune (p : Bool → Node → Bool) : ∀ (l : List Node) (b : Bool) (k : Nat),
    outlineL k (pruneL p b l) = outsideL p b k l
  | [], _, _ => by simp [pruneL, outlineL, outsideL]
  | n :: ns, b, k => by
    simp only [pruneL, outsideL]
    split
    · rw [outlineL_prune p ns b k]
      rfl
    · simp only [outlineL]
      rw [outlineN_prune p n b k, outlineL_prune p ns b k]
end

theorem outlineN_cons (k : Nat) (n : Node) :
    ∃ x rest, outlineN k n = (k, x) :: rest := by
  cases n with
  | text s => exact ⟨_, _, rfl⟩
  | elem t a cs => exact ⟨_, _, rfl⟩

theorem outlineL_head (k : Nat) (l : List Node) (r : List (Nat × Node))
    (hr : ∀ x ∈ r.head?, x.1 < k) : ∀ x ∈ (outlineL k l ++ r).head?, x.1 ≤ k := by
  cases l with
  | nil =>
    intro x hx
    exact Nat.le_of_lt (hr x hx)
  | cons n ns =>
    obtain ⟨y, rest, hy⟩ := outlineN_cons k n
    intro x hx
    simp only [outlineL, hy, List.cons_append, List.head?_cons, Option.mem_def,
      Option.some.injEq] at hx
    rw [← hx]

mutual
theorem outlineN_inj : ∀ (n n' : Node) (k : Nat) (r r' : List (Nat × Node)),
    (∀ x ∈ r.head?, x.1 ≤ k) → (∀ x ∈ r'.head?, x.1 ≤ k) →
    outlineN k n ++ r = outlineN k n' ++ r' → n = n' ∧ r = r'
  | .text s, n', k, r, r', _, _, h => by
    cases n' with
    | text s' =>
      simp only [outlineN, List.cons_append, List.nil_append, List.cons.injEq, Prod.mk.injEq,
        Node.text.injEq, true_and] at h
      exact ⟨by rw [h.1], h.2⟩
    | elem t a cs => simp [outlineN] at h
  | .elem t a cs, n', k, r, r', hr, hr', h => by
    cases n' with
    | text s' => simp [outlineN] at h
    | elem t' a' cs' =>
      simp only [outlineN, List.cons_append, List.cons.injEq, Prod.mk.injEq, Node.elem.injEq,
        true_and, and_true] at h
      obtain ⟨⟨ht, ha⟩, hrest⟩ := h
      have := outlineL_inj cs cs' (k + 1) r r'
        (fun x hx => Nat.lt_succ_of_le (hr x hx)) (fun x hx => Nat.lt_succ_of_le (hr' x hx)) hrest
      exact ⟨by rw [ht, ha, this.1], this.2⟩
theorem outlineL_inj : ∀ (l l' : List Node) (k : Nat) (r r' : List (Nat × Node)),
    (∀ x ∈ r.head?, x.1 < k) → (∀ x ∈ r'.head?, x.1 < k) →
    outlineL k l ++ r = outlineL k l' ++ r' → l = l' ∧ r = r'
  | [], l', k, r, r', hr, _, h => by
    cases l' with
    | nil => exact ⟨rfl, h⟩
    | cons n' ns' =>
      obtain ⟨y, rest, hy⟩ := outlineN_cons k n'
      simp only [outlineL, List.nil_append, hy, List.cons_append] at h
      have := hr (k, y) (by rw [h]; rfl)
      exact absurd this (Nat.lt_irrefl k)
  | n :: ns, l', k, r, r', hr, hr', h => by
    cases l' with
    | nil =>
      obtain ⟨y, rest, hy⟩ := outlineN_cons k n
      simp only [outlineL, List.nil_append, hy, List.cons_append] at h
      have := hr' (k, y) (by rw [← h]; rfl)
      exact absurd this (Nat.lt_irrefl k)
    | cons n' ns' =>
      simp only [outlineL, List.append_assoc] at h
      have h1 := outlineN_inj n n' k _ _ (outlineL_head k ns r hr) (outlineL_head k ns' r' hr') h
      have h2 := outlineL_inj ns ns' k r r' hr hr' h1.2
      exact ⟨by rw [h1.1, h2.1], h2.2⟩
end

/-- A forest is determined by its outline. -/
theorem outlineL_injective (l l' : List Node) (h : outlineL 0 l = outlineL 0 l') : l = l' := by
  have := outlineL_inj l l' 0 [] [] (by simp) (by simp) (by simpa using h)
  exact this.1

theorem removeTitle_outline (dom : Node) :
    outlineL 0 (removeTitle dom).children = outsideL isMetaTitle false 0 dom.children := by
  cases dom with
  | text s => rfl
  | elem t a cs => exact outlineL_prune isMetaTitle cs false 0

theorem removeDateBlock_outline (dom : Node) :
    outlineL 0 (removeDateBlock dom).children = outsideL isDateBlock false 0 dom.children := by
  cases dom with
  | text s => rfl
  | elem t a cs => exact outlineL_prune isDateBlock cs false 0

theorem removeTitle_root (dom : Node) :
    removeTitle dom = dom.setChildren (removeTitle dom).children := by
  cases dom <;> rfl

theorem removeDateBlock_root (dom : Node) :
    removeDateBlock dom = dom.setChildren (removeDateBlock dom).children := by
  cases dom <;> rfl

theorem getAttr_setAttr_same (name v : Str) : ∀ (a : List (Str × Str)),
    getAttr (setAttr a name v) name = some v
  | [] => by simp [setAttr, getAttr]
  | (k, w) :: r => by
    by_cases hk : k = name
    · simp [setAttr, getAttr, hk]
    · simp [setAttr, getAttr, hk, getAttr_setAttr_same name v r]

theorem getAttr_setAttr_other (name other v : Str) (hne : name ≠ other) :
    ∀ (a : List (Str × Str)), getAttr (setAttr a name v) other = getAttr a other
  | [] => by simp [setAttr, getAttr, hne]
  | (k, w) :: r => by
    by_cases hk : k = name
    · subst hk
      simp [setAttr, getAttr, hne]
    · by_cases ho : k = other
      · subst ho
        simp [setAttr, getAttr, hk]
      · simp [setAttr, getAttr, hk, ho, getAttr_setAttr_other name other v hne r]

theorem getAttr_keywords (t : Str) (a : List (Str × Str)) (v k : Str)
    (hk : k ≠ "content".toList) :
    getAttr (if t = "meta".toList ∧ getAttr a "name".toList = some "keywords".toList
      then setAttr a "content".toList v else a) k = getAttr a k := by
  split
  · exact getAttr_setAttr_other _ _ _ (fun e => hk e.symm) a
  · rfl

mutual
theorem dateAtN_setKeywords (v : Str) : ∀ (n : Node) (b : Bool) (k : Nat),
    dateAtN b k (setKeywordsN v n) = dateAtN b k n
  | .text _, _, _ => by simp [setKeywordsN, dateAtN]
  | .elem t a cs, b, k => by
    cases k with
    | zero =>
      simp only [setKeywordsN, dateAtN, hasClass, Node.attrs,
        getAttr_keywords t a v "class".toList (by decide)]
    | succ k =>
      simp only [setKeywordsN, dateAtN, isMetadataId,
        getAttr_keywords t a v "id".toList (by decide)]
      exact dateAtL_setKeywords v cs _ k
theorem dateAtL_setKeywords (v : Str) : ∀ (l : List Node) (b : Bool) (k : Nat),
    dateAtL b k (setKeywordsL v l) = dateAtL b k l
  | [], _, _ => by simp [setKeywordsL, dateAtL]
  | n :: ns, b, k => by
    simp only [setKeywordsL, dateAtL]
    rw [dateAtN_setKeywords v n b k, dateAtL_setKeywords v ns b k]
end

mutual
theorem hasDateBlockN_setKeywords (v : Str) : ∀ (n : Node) (b : Bool),
    hasDateBlockN b (setKeywordsN v n) = hasDateBlockN b n
  | .text _, _ => by simp [setKeywordsN, hasDateBlockN]
  | .elem t a cs, b => by
    have h0 := dateAtN_setKeywords v (.elem t a cs) b 3
    simp only [setKeywordsN] at h0
    simp only [setKeywordsN, hasDateBlockN, isDateBlock, h0, isMetadataId,
      getAttr_keywords t a v "id".toList (by decide)]
    rw [hasDateBlockL_setKeywords v cs _]
theorem hasDateBlockL_setKeywords (v : Str) : ∀ (l : List Node) (b : Bool),
    hasDateBlockL b (setKeywordsL v l) = hasDateBlockL b l
  | [], _ => by simp [setKeywordsL, hasDateBlockL]
  | n :: ns, b => by
    simp only [setKeywordsL, hasDateBlockL]
    rw [hasDateBlockN_setKeywords v n b, hasDateBlockL_setKeywords v ns b]
end

theorem setKeywords_dateBlock (dom : Node) (v : Str) :
    hasDateBlockL false (setKeywords dom v).children = hasDateBlockL false dom.children := by
  cases dom with
  | text s => rfl
  | elem t a cs => exact hasDateBlockL_setKeywords v cs false

mutual
theorem dateAtN_of_noDate : ∀ (n : Node) (b : Bool) (k : Nat),
    selectN (fun e => hasClass e "date".toList) n = [] → dateAtN b k n = false
  | .text _, _, _, _ => by simp [dateAtN]
  | .elem t a cs, b, k, h => by
    simp only [selectN, List.append_eq_nil] at h
    cases k with
    | zero =>
      have hc : hasClass (.elem t a cs) "date".toList = false := by
        cases hq : hasClass (.elem t a cs) "date".toList with
        | false => rfl
        | true =>
          have h1 := h.1
          simp only [hq, if_true] at h1
          exact absurd h1 (by simp)
      simp only [dateAtN, hc, Bool.and_false]
    | succ k =>
      simp only [dateAtN]
      exact dateAtL_of_noDate cs _ k h.2
theorem dateAtL_of_noDate : ∀ (l : List Node) (b : Bool) (k : Nat),
    selectL (fun e => hasClass e "date".toList) l = [] → dateAtL b k l = false
  | [], _, _, _ => by simp [dateAtL]
  | n :: ns, b, k, h => by
    simp only [selectL, List.append_eq_nil] at h
    simp only [dateAtL, dateAtN_of_noDate n b k h.1, dateAtL_of_noDate ns b k h.2,
      Bool.or_self]
end

mutual
theorem hasDateBlockN_of_noDate : ∀ (n : Node) (b : Bool),
    selectN (fun e => hasClass e "date".toList) n = [] → hasDateBlockN b n = false
  | .text _, _, _ => by simp [hasDateBlockN]
  | .elem t a cs, b, h => by
    have h3 := dateAtN_of_noDate (.elem t a cs) b 3 h
    simp only [selectN, List.append_eq_nil] at h
    simp only [hasDateBlockN, isDateBlock, h3, Bool.false_or]
    exact hasDateBlockL_of_noDate cs _ h.2
theorem hasDateBlockL_of_noDate : ∀ (l : List Node) (b : Bool),
    selectL (fun e => hasClass e "date".toList) l = [] → hasDateBlockL b l = false
  | [], _, _ => by simp [hasDateBlockL]
  | n :: ns, b, h => by
    simp only [selectL, List.append_eq_nil] at h
    simp only [hasDateBlockL, hasDateBlockN_of_noDate n b h.1, hasDateBlockL_of_noDate ns b h.2,
      Bool.or_self]
end

mutual
theorem dateAtN_setTitle (c : List Node)
    (hc : selectL (fun e => hasClass e "date".toList) c = []) : ∀ (n : Node) (b : Bool) (k : Nat),
    dateAtN b k (setTitleN c n) = true → dateAtN b k n = true
  | .text _, _, _ => by simp [setTitleN, dateAtN]
  | .elem t a cs, b, k => by
    intro h
    simp only [setTitleN] at h
    split at h
    · cases k with
      | zero => simpa [dateAtN, hasClass, Node.attrs] using h
      | succ k =>
        simp only [dateAtN] at h
        rw [dateAtL_of_noDate c _ k hc] at h
        exact absurd h (by decide)
    · cases k with
      | zero => simpa [dateAtN, hasClass, Node.attrs] using h
      | succ k =>
        simp only [dateAtN] at h ⊢
        exact dateAtL_setTitle c hc cs _ k h
theorem dateAtL_setTitle (c : List Node)
    (hc : selectL (fun e => hasClass e "date".toList) c = []) :
    ∀ (l : List Node) (b : Bool) (k : Nat),
    dateAtL b k (setTitleL c l) = true → dateAtL b k l = true
  | [], _, _ => by simp [setTitleL, dateAtL]
  | n :: ns, b, k => by
    intro h
    simp only [setTitleL, dateAtL, Bool.or_eq_true] at h ⊢
    rcases h with h | h
    · exact Or.inl (dateAtN_setTitle c hc n b k h)
    · exact Or.inr (dateAtL_setTitle c hc ns b k h)
end

mutual
theorem hasDateBlockN_setTitle (c : List Node)
    (hc : selectL (fun e => hasClass e "date".toList) c = []) : ∀ (n : Node) (b : Bool),
    hasDateBlockN b (setTitleN c n) = true → hasDateBlockN b n = true
  | .text _, _ => by simp [setTitleN, hasDateBlockN]
  | .elem t a cs, b => by
    intro h
    have h3 := dateAtN_setTitle c hc (.elem t a cs) b 3
    simp only [setTitleN] at h h3
    simp only [hasDateBlockN, isDateBlock, Bool.or_eq_true]
    split at h
    · rename_i ht
      simp only [ht, if_true] at h3
      simp only [hasDateBlockN, isDateBlock, Bool.or_eq_true] at h
      rcases h with h | h
      · exact Or.inl (h3 h)
      · rw [hasDateBlockL_of_noDate c _ hc] at h
        exact absurd h (by decide)
    · rename_i ht
      simp only [ht, if_false] at h3
      simp only [hasDateBlockN, isDateBlock, Bool.or_eq_true] at h
      rcases h with h | h
      · exact Or.inl (h3 h)
      · exact Or.inr (hasDateBlockL_setTitle c hc cs _ h)
theorem hasDateBlockL_setTitle (c : List Node)
    (hc : selectL (fun e => hasClass e "date".toList) c = []) : ∀ (l : List Node) (b : Bool),
    hasDateBlockL b (setTitleL c l) = true → hasDateBlockL b l = true
  | [], _ => by simp [setTitleL, hasDateBlockL]
  | n :: ns, b => by
    intro h
    simp only [setTitleL, hasDateBlockL, Bool.or_eq_true] at h ⊢
    rcases h with h | h
    · exact Or.inl (hasDateBlockN_setTitle c hc n b h)
    · exact Or.inr (hasDateBlockL_setTitle c hc ns b h)
end

theorem setTitle_dateBlock (h : Html) (dom : Node) (s : Str)
    (hc : selectL (fun e => hasClass e "date".toList) (h.parse s) = [])
    (hd : hasDateBlockL false dom.children = false) :
    hasDateBlockL false (setTitle h dom s).children = false := by
  cases dom with
  | text t => rfl
  | elem t a cs =>
    cases hk : hasDateBlockL false (setTitle h (.elem t a cs) s).children with
    | false => rfl
    | true =>
      have := hasDateBlockL_setTitle (h.parse s) hc cs false hk
      simp only [Node.children] at hd
      rw [hd] at this
      exact absurd this (by decide)

theorem pruneMissing_some (m : Metadata) (dom : Node) :
    pruneMissing (some m) dom =
      .ok (if m.date.isUndefined then
          removeDateBlock (if m.title.isUndefined then removeTitle dom else dom)
        else (if m.title.isUndefined then removeTitle dom else dom)) := by
  cases ht : m.title.isUndefined <;> cases hd : m.date.isUndefined <;>
    simp [pruneMissing, prop, ht, hd, bind, Except.bind, pure, Except.pure]

theorem isUndefined_iff (v : Val) : v.isUndefined = true ↔ v = .undefined := by
  cases v <;> simp [Val.isUndefined]

theorem decorate_some {T : Type} (d : Docs T) (m : Metadata) (dom out : Node)
    (h : pruneMissing (some m) dom = .ok out) :
    decorate d (some m) dom =
      .ok (setKeywords
        (if m.title.truthy then setTitle d.html out ("node docs :: ".toList ++ m.title.toStr)
          else out)
        (joinWith [','] (m.tags.getD [] ++ d.tags.getD []))) := by
  simp only [decorate, h, giveTitle, keywords, prop, bind, Except.bind, pure, Except.pure,
    Option.isSome_some, if_true]

/-- C6, amended. For a page with metadata, the pruning of lines 154-159 returns a tree with the
root of `dom`, and in that tree
* when `metadata.date` is undefined there is no element with a `#metadata .date` element three
  levels below it, and when `metadata.title` is undefined there is no `#metadata .title`
  element;
* when both are defined nothing has changed;
* when only the title is undefined the nodes are those of `dom` outside the `#metadata .title`
  elements, in their order and at their depth; when only the date is undefined they are those
  outside the date blocks; when both are undefined the title elements go first and the date
  blocks of what is left after them; and the tree is the only one with the root of `dom` and
  these nodes.
The tree handed to the highlighter, after the title and keywords steps, still has no date block
when `metadata.date` is undefined, provided the title, if it is truthy, gives no element of
class `date` when it is parsed as markup. -/
theorem prune_missing {T : Type} (d : Docs T) (m : Metadata) (dom : Node) :
    ∃ out, pruneMissing (some m) dom = .ok out ∧
      out = dom.setChildren out.children ∧
      (m.date = .undefined → hasDateBlockL false out.children = false) ∧
      (m.title = .undefined → hasMetaTitleL false out.children = false) ∧
      (m.title ≠ .undefined → m.date ≠ .undefined → out = dom) ∧
      (m.title = .undefined → m.date ≠ .undefined →
        outlineL 0 out.children = outsideL isMetaTitle false 0 dom.children) ∧
      (m.title ≠ .undefined → m.date = .undefined →
        outlineL 0 out.children = outsideL isDateBlock false 0 dom.children) ∧
      (m.title = .undefined → m.date = .undefined →
        ∃ mid, mid = dom.setChildren mid.children ∧
          outlineL 0 mid.children = outsideL isMetaTitle false 0 dom.children ∧
          outlineL 0 out.children = outsideL isDateBlock false 0 mid.children) ∧
      (∀ other : Node, other = dom.setChildren other.children →
        outlineL 0 other.children = outlineL 0 out.children → other = out) ∧
      (m.date = .undefined →
        (m.title.truthy = true →
          selectL (fun e => hasClass e "date".toList)
            (d.html.parse ("node docs :: ".toList ++ m.title.toStr)) = []) →
        ∃ tree, decorate d (some m) dom = .ok tree ∧
          hasDateBlockL false tree.children = false) := by
  have hU : ∀ v : Val, v = .undefined → v.isUndefined = true := fun v h =>
    (isUndefined_iff v).mpr h
  have hD : ∀ v : Val, v ≠ .undefined → ¬ v.isUndefined = true := fun v h h1 =>
    h ((isUndefined_iff v).mp h1)
  have hclean : m.date = .undefined →
      hasDateBlockL false
        (if m.date.isUndefined then
          removeDateBlock (if m.title.isUndefined then removeTitle dom else dom)
        else (if m.title.isUndefined then removeTitle dom else dom)).children = false := by
    intro hd
    rw [if_pos (hU _ hd)]
    exact removeDateBlock_clean _
  have hroot : (if m.date.isUndefined then
          removeDateBlock (if m.title.isUndefined then removeTitle dom else dom)
        else (if m.title.isUndefined then removeTitle dom else dom)) =
      dom.setChildren (if m.date.isUndefined then
          removeDateBlock (if m.title.isUndefined then removeTitle dom else dom)
        else (if m.title.isUndefined then removeTitle dom else dom)).children := by
    cases dom <;> (split <;> split <;> rfl)
  refine ⟨_, pruneMissing_some m dom, hroot, hclean, ?_, ?_, ?_, ?_, ?_, ?_, ?_⟩
  · intro ht
    simp only [hU _ ht, if_true]
    split
    · exact removeDateBlock_keeps_clean _ (removeTitle_clean dom)
    · exact removeTitle_clean dom
  · intro ht hd
    rw [if_neg (hD _ hd), if_neg (hD _ ht)]
  · intro ht hd
    rw [if_neg (hD _ hd), if_pos (hU _ ht)]
    exact removeTitle_outline dom
  · intro ht hd
    rw [if_pos (hU _ hd), if_neg (hD _ ht)]
    exact removeDateBlock_outline dom
  · intro ht hd
    rw [if_pos (hU _ hd), if_pos (hU _ ht)]
    exact ⟨removeTitle dom, removeTitle_root dom, removeTitle_outline dom,
      removeDateBlock_outline _⟩
  · intro other ho hout
    rw [ho, hroot, outlineL_injective _ _ hout]
  · intro hd htitle
    refine ⟨_, decorate_some d m dom _ (pruneMissing_some m dom), ?_⟩
    rw [setKeywords_dateBlock]
    split
    · rename_i ht
      exact setTitle_dateBlock _ _ _ (htitle ht) (hclean hd)
    · exact hclean hd

set_option maxRecDepth 100000 in
/-- C6 as stated fails: the page has no date, and its title is markup with a `#metadata .date`
element three levels down. The tree has no date block after the pruning, and the tree that the
rendering leaves has one, put there by the title step. -/
theorem prune_missing_counterexample :
    (exampleDateTitled.metadata.map (fun m => m.date)) = some .undefined ∧
    (match exampleDateTitled.metadata with
      | some m =>
        (match pruneMissing (some m) (.elem "div".toList [] (parseHtml exampleArticle)) with
          | .ok out => hasDateBlockL false out.children
          | .error _ => true)
      | none => true) = false ∧
    leavesDateBlock (weldPage exampleDocs exampleDom "/src/titled".toList exampleDateTitled) =
      true := by
  refine ⟨rfl, by decide, by decide⟩

set_option maxRecDepth 100000 in
/-- On the article template of the examples the date block is there before the pruning and gone
after it, when the metadata have a title and no date. -/
theorem pruneMissing_article_example :
    hasDateBlockL false (parseHtml exampleArticle) = true ∧
    (match pruneMissing (some { exampleTagged with title := .str "Hello".toList })
        (.elem "div".toList [] (parseHtml exampleArticle)) with
      | .ok out => some (serializeL out.children)
      | .error _ => none) =
      some ("<title></title><meta name=\"keywords\"><div id=\"metadata\">" ++
        "<h1 class=\"title\"></h1></div><div class=\"content\"></div>").toList := by
  decide

theorem pruneMissing_none (dom : Node) : pruneMissing none dom = .ok dom := rfl

/-! ## C7: a directory without content or metadata -/

/-- C7. For a page without `content` and without `metadata`: no markdown is parsed, the author
lookup does nothing, the directory view is selected, the data welded to it are `pwd` (the page
key made relative to the source root), `ls` (the listing of the page, or the empty list), the
table of contents and the metadata `{ breadcrumb: ["."] }`; pruning, title and keywords raise
nothing on the absent metadata, and the preparation of the page returns as soon as `weld`
does. -/
theorem directory_fallback {T : Type} (d : Docs T) (dom : Node) (i : Str) (page : Page)
    (hc : page.content = none) (hm : page.metadata = none) :
    parseContent d page = .ok none ∧
    resolveAuthor d page.metadata = .ok none ∧
    selectView none none = .directory ∧
    template d (selectView none none) = d.directoryHtml ∧
    buildData d i page none none =
      .directory (d.unresolve d.src i) (page.ls.getD []) d.toc
        { title := .undefined, date := .undefined, author := none, tags := none,
          breadcrumb := some [['.']] } ∧
    (∀ tree, decorate d none tree =
      .ok (setKeywords tree (joinWith [','] (d.tags.getD [])))) ∧
    (∀ welded,
      d.weld (d.html.setInnerHTML dom d.directoryHtml)
          (.directory (d.unresolve d.src i) (page.ls.getD []) d.toc rootCrumb)
          (weld.map d.html) = .ok welded →
      prepare d dom i page =
        .ok (setKeywords welded (joinWith [','] (d.tags.getD [])), page)) := by
  have hpc : parseContent d page = .ok none := by simp [parseContent, hc]
  refine ⟨hpc, by rw [hm]; rfl, rfl, rfl, rfl, fun _ => rfl, ?_⟩
  intro welded hw
  rw [prepare_without_metadata d dom i page none hm hpc, hw]

set_option maxRecDepth 100000 in
theorem directory_fallback_witness :
    contentOf (weldPage exampleDocs exampleDom "/src/articles".toList exampleDir) =
      some ("<title></title><meta name=\"keywords\" content=\"node,docs\">" ++
        "<nav><a class=\"breadcrumb\" href=\"/.\">.</a></nav>" ++
        "<table><tbody class=\"ls\"><tr class=\"ls\"><td><a href=\"x.md\">x.md</a></td></tr></tbody>" ++
        "<tbody class=\"ls\"><tr class=\"ls\"><td><a href=\"y/z.md\">z.md</a></td></tr></tbody>" ++
        "</table>").toList ∧
    buildData exampleDocs "/src/articles".toList exampleDir none none =
      .directory "articles".toList ["pages/x.md".toList, "pages/y/z.md".toList] ()
        { title := .undefined, date := .undefined, author := none, tags := none,
          breadcrumb := some [['.']] } :=
  ⟨by decide,
    (directory_fallback exampleDocs exampleDom "/src/articles".toList exampleDir rfl rfl).2.2.2.2.1⟩

/-! ## C8: an exception in one page -/

theorem failWith_error {α : Type} (page page' : Page) (x : Except JsError α) (e : JsError)
    (h : failWith page x = .error (e, page')) : page' = page ∧ x = .error e := by
  cases x with
  | error e1 =>
    simp only [failWith, Except.error.injEq, Prod.mk.injEq] at h
    exact ⟨h.2.symm, by rw [h.1]⟩
  | ok a => simp [failWith] at h

theorem prepare_error_content {T : Type} (d : Docs T) (dom : Node) (i : Str) (page page' : Page)
    (e : JsError) (h : prepare d dom i page = .error (e, page')) :
    page'.content = page.content ∧ page'.ls = page.ls := by
  unfold prepare at h
  simp only [bind, Except.bind, pure, Except.pure] at h
  split at h
  · rename_i h1
    cases h
    rw [(failWith_error _ _ _ _ h1).1]
    exact ⟨rfl, rfl⟩
  · split at h
    · rename_i h2
      cases h
      rw [(failWith_error _ _ _ _ h2).1]
      exact ⟨rfl, rfl⟩
    · split at h
      · rename_i h3
        cases h
        rw [(failWith_error _ _ _ _ h3).1]
        exact ⟨rfl, rfl⟩
      · split at h
        · rename_i h4
          cases h
          rw [(failWith_error _ _ _ _ h4).1]
          exact ⟨rfl, rfl⟩
        · cases h

theorem prepare_ok_content {T : Type} (d : Docs T) (dom : Node) (i : Str) (page page1 : Page)
    (tree : Node) (h : prepare d dom i page = .ok (tree, page1)) :
    page1.content = page.content ∧ page1.ls = page.ls := by
  unfold prepare at h
  simp only [bind, Except.bind, pure, Except.pure] at h
  split at h
  · cases h
  · split at h
    · cases h
    · split at h
      · cases h
      · split at h
        · cases h
        · cases h
          exact ⟨rfl, rfl⟩

theorem weldPage_error_content {T : Type} (d : Docs T) (dom : Node) (i : Str)
    (page page' : Page) (e : JsError) (h : weldPage d dom i page = .error (e, page')) :
    page'.content = page.content ∧ page'.ls = page.ls := by
  unfold weldPage at h
  simp only [bind, Except.bind, pure, Except.pure] at h
  split at h
  · rename_i h1
    cases h
    exact prepare_error_content d dom i page _ _ h1
  · rename_i v h1
    obtain ⟨tree, page1⟩ := v
    have hp := prepare_ok_content d dom i page page1 tree h1
    simp only at h
    split at h
    · rename_i h2
      cases h
      rw [(failWith_error _ _ _ _ h2).1]
      exact hp
    · cases h

theorem weldLoop_stops {T : Type} (d : Docs T) (i : Str) (page page' : Page) (e : JsError)
    (rest : List (Str × Page)) :
    ∀ (pre pre' : List (Str × Page)) (dom dom' : Node),
      weldLoop d dom pre = (pre', .ok dom') → weldPage d dom' i page = .error (e, page') →
      weldLoop d dom (pre ++ (i, page) :: rest) = (pre' ++ (i, page') :: rest, .error e)
  | [], pre', dom, dom', hpre, hfail => by
    simp only [weldLoop, Prod.mk.injEq, Except.ok.injEq] at hpre
    obtain ⟨rfl, rfl⟩ := hpre
    simp only [List.nil_append, weldLoop, hfail]
  | (k, p) :: pre, pre', dom, dom', hpre, hfail => by
    simp only [weldLoop] at hpre
    simp only [List.cons_append, weldLoop]
    split at hpre
    · simp at hpre
    · rename_i dom1 p1 hk
      simp only [Prod.mk.injEq] at hpre
      have ih := weldLoop_stops d i page page' e rest pre (weldLoop d dom1 pre).1 dom1 dom'
        (by rw [← hpre.2]) hfail
      rw [show pre.append ((i, page) :: rest) = pre ++ (i, page) :: rest from rfl, ih, ← hpre.1]
      rfl

/-- C8, amended. An exception raised while a page is rendered (by the markdown converter, the
author lookup, `weld` with its binding rules, the later steps or the highlighter) leaves
`content.weld`: the pages before it in key order have been rendered, the page itself keeps the
content and the listing it had, the pages after it are not touched, and the run ends with the
exception. -/
theorem weld_stops_at_failure {T : Type} (d : Docs T) (dom dom' : Node)
    (pre pre' rest : List (Str × Page)) (i : Str) (page page' : Page) (e : JsError)
    (hpre : weld d dom pre = (pre', .ok dom'))
    (hfail : weldPage d dom' i page = .error (e, page')) :
    weld d dom (pre ++ (i, page) :: rest) = (pre' ++ (i, page') :: rest, .error e) ∧
    page'.content = page.content ∧ page'.ls = page.ls :=
  ⟨weldLoop_stops d i page page' e rest pre pre' dom dom' hpre hfail,
    weldPage_error_content d dom' i page page' e hfail⟩

set_option maxRecDepth 100000 in
theorem weld_stops_at_failure_witness :
    weld exampleDocs exampleDom
        ([(exampleKey, examplePost)] ++
          ("/src/ctor".toList, exampleCtorPost) ::
            [("/src/bad".toList, exampleBadPost), ("/src/articles".toList, exampleDir)]) =
      ([(exampleKey, exampleRendered.2)] ++
          ("/src/ctor".toList, exampleCtorPost) ::
            [("/src/bad".toList, exampleBadPost), ("/src/articles".toList, exampleDir)],
        .error .typeError) ∧
    exampleCtorPost.content = exampleCtorPost.content ∧
    exampleCtorPost.ls = exampleCtorPost.ls :=
  weld_stops_at_failure exampleDocs exampleDom exampleRendered.1 [(exampleKey, examplePost)]
    [(exampleKey, exampleRendered.2)]
    [("/src/bad".toList, exampleBadPost), ("/src/articles".toList, exampleDir)]
    "/src/ctor".toList exampleCtorPost exampleCtorPost .typeError (by rfl) (by rfl)

set_option maxRecDepth 100000 in
/-- The author lookup of line 49 ends the run: for the author id `constructor` the registry
object gives its inherited constructor, which has no `file`, and the run ends with a `TypeError`
at that page; the page after it, whose date is no date, is not reached. A date that is no date
ends the run with a `RangeError` after the pages before it have been rendered. -/
theorem weld_stops_examples :
    resolveAuthor exampleDocs exampleCtorPost.metadata = .error .typeError ∧
    weld exampleDocs exampleDom
        [("/src/ctor".toList, exampleCtorPost), ("/src/bad".toList, exampleBadPost)] =
      ([("/src/ctor".toList, exampleCtorPost), ("/src/bad".toList, exampleBadPost)],
        .error .typeError) ∧
    weld exampleDocs exampleDom
        [(exampleKey, examplePost), ("/src/bad".toList, exampleBadPost),
          ("/src/articles".toList, exampleDir)] =
      ([(exampleKey, exampleRendered.2), ("/src/bad".toList, exampleBadPost),
          ("/src/articles".toList, exampleDir)], .error .rangeError) := by
  refine ⟨by rfl, by rfl, by rfl⟩

set_option maxRecDepth 100000 in
/-- C8 as stated fails: the date of the first page is no date, its rendering raises a
`RangeError`, and the second page, which renders on its own, is left with its markdown. -/
theorem weld_failure_counterexample :
    (weld exampleDocs exampleDom
        [("/src/bad".toList, exampleBadPost), (exampleKey, examplePost)]).1.map
      (fun kp => kp.2.content) = [some "draft".toList, some "x &gt; y".toList] ∧
    failureOf (weld exampleDocs exampleDom
        [("/src/bad".toList, exampleBadPost), (exampleKey, examplePost)]).2 =
      some .rangeError ∧
    (contentOf (weldPage exampleDocs exampleDom exampleKey examplePost)).isSome = true ∧
    contentOf (weldPage exampleDocs exampleDom exampleKey examplePost) ≠
      some "x &gt; y".toList := by
  decide

/-! ## C9: the keywords meta tag -/

mutual
theorem keywordsSetN_set (v : Str) : ∀ (n : Node), keywordsSetN v (setKeywordsN v n) = true
  | .text _ => by simp [setKeywordsN, keywordsSetN]
  | .elem t a cs => by
    simp only [setKeywordsN, keywordsSetN, Bool.and_eq_true]
    refine ⟨?_, keywordsSetL_set v cs⟩
    by_cases hm : t = "meta".toList ∧ getAttr a "name".toList = some "keywords".toList
    · have h1 : getAttr (setAttr a "content".toList v) "name".toList =
          some "keywords".toList := by
        rw [getAttr_setAttr_other _ _ _ (by decide)]
        exact hm.2
      simp only [if_pos hm]
      rw [if_pos ⟨hm.1, h1⟩, getAttr_setAttr_same]
      simp
    · simp only [if_neg hm]
theorem keywordsSetL_set (v : Str) : ∀ (l : List Node), keywordsSetL v (setKeywordsL v l) = true
  | [] => by simp [setKeywordsL, keywordsSetL]
  | n :: ns => by
    simp only [setKeywordsL, keywordsSetL, Bool.and_eq_true]
    exact ⟨keywordsSetN_set v n, keywordsSetL_set v ns⟩
end

theorem keywords_eq {T : Type} (d : Docs T) (metadata : Option Metadata) :
    keywords d metadata = .ok (joinWith [','] (ownTags metadata ++ d.tags.getD [])) := by
  cases metadata <;> rfl

theorem giveTitle_returns (h : Html) (metadata : Option Metadata) (dom : Node) :
    ∃ out, giveTitle h metadata dom = .ok out := by
  cases metadata with
  | none => exact ⟨dom, rfl⟩
  | some m => exact ⟨_, rfl⟩

theorem pruneMissing_returns (metadata : Option Metadata) (dom : Node) :
    ∃ out, pruneMissing metadata dom = .ok out := by
  cases metadata with
  | none => exact ⟨dom, rfl⟩
  | some m => exact ⟨_, pruneMissing_some m dom⟩

theorem decorate_returns {T : Type} (d : Docs T) (metadata : Option Metadata) (dom : Node) :
    ∃ t, decorate d metadata dom =
      .ok (setKeywords t (joinWith [','] (ownTags metadata ++ d.tags.getD []))) := by
  obtain ⟨p, hp⟩ := pruneMissing_returns metadata dom
  obtain ⟨t, ht⟩ := giveTitle_returns d.html metadata p
  refine ⟨t, ?_⟩
  simp only [decorate, hp, ht, keywords_eq, bind, Except.bind, pure, Except.pure]

theorem distinctTags_nodup : ∀ (l : List Str), l.Nodup → distinctTags l = l
  | [], _ => rfl
  | t :: r, h => by
    have hr := distinctTags_nodup r (List.nodup_cons.mp h).2
    have ht : t ∉ r := (List.nodup_cons.mp h).1
    simp only [distinctTags, hr]
    congr 1
    rw [List.filter_eq_self]
    intro x hx
    have : x ≠ t := fun e => ht (e ▸ hx)
    simpa using this

theorem distinctTags_is_nodup : ∀ (l : List Str), (distinctTags l).Nodup
  | [] => List.nodup_nil
  | t :: r => by
    simp only [distinctTags]
    refine List.nodup_cons.mpr ⟨?_, (distinctTags_is_nodup r).filter _⟩
    simp [List.mem_filter]

theorem distinctTags_sublist : ∀ (l : List Str), List.Sublist (distinctTags l) l
  | [] => List.Sublist.slnil
  | t :: r => by
    simp only [distinctTags]
    exact List.Sublist.cons₂ t ((List.filter_sublist _).trans (distinctTags_sublist r))

theorem distinctTags_eq_nil (l : List Str) (h : distinctTags l = []) : l = [] := by
  cases l with
  | nil => rfl
  | cons t r => simp [distinctTags] at h

/-- The length of a comma-joined list: the characters of its items and one comma less than it
has items. -/
theorem length_joinWith_comma : ∀ (l : List Str), l ≠ [] →
    (joinWith [','] l).length + 1 = (l.map (fun s => s.length + 1)).sum
  | [], h => absurd rfl h
  | [s], _ => by simp [joinWith]
  | s :: t :: r, _ => by
    have ih := length_joinWith_comma (t :: r) (by simp)
    simp only [joinWith, List.length_append, List.map_cons, List.sum_cons, List.length_cons,
      List.length_nil] at ih ⊢
    omega

theorem weight_sublist {l1 l2 : List Str} (h : List.Sublist l1 l2) :
    (l1.map (fun s => s.length + 1)).sum ≤ (l2.map (fun s => s.length + 1)).sum := by
  induction h with
  | slnil => exact Nat.le_refl _
  | cons a _ ih =>
    simp only [List.map_cons, List.sum_cons]
    omega
  | cons₂ a _ ih =>
    simp only [List.map_cons, List.sum_cons]
    omega

theorem eq_of_sublist_of_weight {l1 l2 : List Str} (h : List.Sublist l1 l2)
    (hw : (l2.map (fun s => s.length + 1)).sum ≤ (l1.map (fun s => s.length + 1)).sum) :
    l1 = l2 := by
  induction h with
  | slnil => rfl
  | cons a hs _ =>
    have := weight_sublist hs
    simp only [List.map_cons, List.sum_cons] at hw
    omega
  | cons₂ a _ ih =>
    simp only [List.map_cons, List.sum_cons] at hw
    rw [ih (by omega)]

/-- Joining with commas tells a list from the list of its distinct items, unless they are the
same list. -/
theorem joinWith_distinctTags (l : List Str)
    (h : joinWith [','] l = joinWith [','] (distinctTags l)) : distinctTags l = l := by
  by_cases hl : l = []
  · rw [hl]
    rfl
  · have hd : distinctTags l ≠ [] := fun e => hl (distinctTags_eq_nil l e)
    have h1 := length_joinWith_comma l hl
    have h2 := length_joinWith_comma (distinctTags l) hd
    rw [h] at h1
    exact eq_of_sublist_of_weight (distinctTags_sublist l) (by omega)

/-- C9, amended. For every page the keywords value is the page's tags followed by the global
tags, joined with commas, with a tag that is in both lists, or twice in one, repeated; it is the
empty string when both lists are empty or absent, and it is the union, each tag once, exactly
when no tag is repeated. Decoration returns a tree in which every `meta[name=keywords]` element
has this value as its `content` attribute. -/
theorem keywords_meta {T : Type} (d : Docs T) (metadata : Option Metadata) (dom : Node) :
    keywords d metadata = .ok (joinWith [','] (ownTags metadata ++ d.tags.getD [])) ∧
    (∃ out, decorate d metadata dom = .ok out ∧
      keywordsSetL (joinWith [','] (ownTags metadata ++ d.tags.getD [])) out.children = true) ∧
    (ownTags metadata = [] → d.tags.getD [] = [] → keywords d metadata = .ok []) ∧
    (keywords d metadata = .ok (keywordsUnion (ownTags metadata) (d.tags.getD [])) ↔
      (ownTags metadata ++ d.tags.getD []).Nodup) := by
  refine ⟨keywords_eq d metadata, ?_, ?_, ?_, ?_⟩
  · obtain ⟨t, ht⟩ := decorate_returns d metadata dom
    refine ⟨_, ht, ?_⟩
    cases t with
    | text s => rfl
    | elem tg a cs => exact keywordsSetL_set _ cs
  · intro h1 h2
    rw [keywords_eq, h1, h2]
    rfl
  · intro hk
    rw [keywords_eq, keywordsUnion, Except.ok.injEq] at hk
    rw [← joinWith_distinctTags _ hk]
    exact distinctTags_is_nodup _
  · intro hn
    rw [keywords_eq, keywordsUnion, distinctTags_nodup _ hn]

/-- C9 as stated fails: with the page tag `node` and the global tags `node`, `docs` the keywords
are `node,node,docs`, where the union with each tag once is `node,docs`. -/
theorem keywords_meta_counterexample :
    ownTags (some exampleTagged) = ["node".toList] ∧
    exampleDocs.tags = some ["node".toList, "docs".toList] ∧
    keywords exampleDocs (some exampleTagged) = .ok "node,node,docs".toList ∧
    keywordsUnion ["node".toList] ["node".toList, "docs".toList] = "node,docs".toList ∧
    "node,node,docs".toList ≠ "node,docs".toList :=
  ⟨rfl, rfl, rfl, by decide, by decide⟩

/-! ## C10: the dispatch of the handler -/

theorem chooseRule_eq (element : Node) :
    chooseRule element =
      bif hasClass element "breadcrumb".toList then Rule.breadcrumb
      else bif hasClass element "ls".toList then Rule.listing
      else bif hasClass element "date".toList then Rule.date
      else bif hasClass element "github".toList then Rule.authorLink
      else Rule.rawInject := by
  unfold chooseRule rulePriority
  simp only [List.find?_cons, List.find?_nil]
  cases hasClass element "breadcrumb".toList <;> cases hasClass element "ls".toList <;>
    cases hasClass element "date".toList <;> cases hasClass element "github".toList <;> rfl

theorem hasClass_dispatch (h : Html) (parent element : Node) (key : Str) (val : Val) :
    weld.map h parent element key val = applyRule h (chooseRule element) parent element val := by
  rw [chooseRule_eq]
  unfold weld.map
  cases hasClass element "breadcrumb".toList <;> cases hasClass element "ls".toList <;>
    cases hasClass element "date".toList <;> cases hasClass element "github".toList <;>
    rfl

theorem applyRule_returns_false (h : Html) (r : Rule) (parent element : Node) (val : Val)
    (e : Node) (b : Bool) (hk : applyRule h r parent element val = .ok (e, b)) : b = false := by
  cases r <;> simp only [applyRule] at hk
  · split at hk <;> cases hk
    rfl
  · split at hk <;> cases hk
    rfl
  · split at hk
    · split at hk
      · cases hk
      · split at hk
        · cases hk
          rfl
        · split at hk <;> cases hk
          rfl
    · cases hk
      rfl
  · split at hk <;> cases hk <;> rfl
  · split at hk <;> cases hk
    rfl

theorem applyRule_raises_iff (h : Html) (r : Rule) (parent element : Node) (val : Val) :
    (∃ err, applyRule h r parent element val = .error err) ↔
      (r = .listing ∧ val.isString = false) ∨
      (r = .date ∧ val.truthy = true ∧ h.isoDate val = none) ∨
      (r = .breadcrumb ∧ val.isString = false ∧ val.isUndefined = false ∧
        ∃ err, h.htmlOther
          (element.setAttr "href".toList (crumbTrail h parent ++ '/' :: val.toStr)) val =
            .error err) ∨
      (r = .date ∧ val.isString = false ∧ val.truthy = true ∧
        ∃ date err, h.isoDate val = some date ∧ date ≠ [] ∧
          h.textOther (element.setAttr "datetime".toList date) val = .error err) ∨
      (r = .rawInject ∧ val.isString = false ∧
        ∃ err, h.assignOther element val = .error err) := by
  cases r <;> simp only [applyRule]
  · cases val <;> simp [Html.setHtml, Val.isString, Val.isUndefined] <;>
      (split <;> simp_all)
  · cases val <;> simp [Val.isString]
  · cases hv : val.truthy
    · simp
    · cases hd : h.isoDate val with
      | none => simp
      | some d =>
        by_cases hde : d.isEmpty = true
        · have : d = [] := by simpa using hde
          simp [hde, this]
        · have hne : d ≠ [] := by simpa using hde
          cases val <;> simp [hde, hne, Html.setTextVal, Val.isString] <;>
            (split <;> simp_all)
  · cases hv : val.truthy <;> simp
  · cases val <;> simp [Html.assign, Val.isString] <;> (split <;> simp_all)

/-- C10, amended. The handler applies exactly the rule chosen by the first class the element
carries in the order breadcrumb, ls, date, github, and raw injection when it carries none; it
returns `false` whenever it returns. It raises instead of returning exactly when the listing rule
meets a value that is not a string (a `TypeError`), when the date rule meets a truthy value that
is no valid date (a `RangeError`), or when the value is not a string and the jQuery or DOM call
by which the breadcrumb, date or raw-injection rule puts it into the element raises. For a string
it raises exactly when the date rule meets a non-empty string that is no valid date. -/
theorem map_dispatch (h : Html) (parent element : Node) (key : Str) (val : Val) :
    weld.map h parent element key val = applyRule h (chooseRule element) parent element val ∧
    (∀ e b, weld.map h parent element key val = .ok (e, b) → b = false) ∧
    ((∃ err, weld.map h parent element key val = .error err) ↔
      (chooseRule element = .listing ∧ val.isString = false) ∨
      (chooseRule element = .date ∧ val.truthy = true ∧ h.isoDate val = none) ∨
      (chooseRule element = .breadcrumb ∧ val.isString = false ∧ val.isUndefined = false ∧
        ∃ err, h.htmlOther
          (element.setAttr "href".toList (crumbTrail h parent ++ '/' :: val.toStr)) val =
            .error err) ∨
      (chooseRule element = .date ∧ val.isString = false ∧ val.truthy = true ∧
        ∃ date err, h.isoDate val = some date ∧ date ≠ [] ∧
          h.textOther (element.setAttr "datetime".toList date) val = .error err) ∨
      (chooseRule element = .rawInject ∧ val.isString = false ∧
        ∃ err, h.assignOther element val = .error err)) ∧
    (chooseRule element = .listing → val.isString = false →
      weld.map h parent element key val = .error .typeError) ∧
    (chooseRule element = .date → val.truthy = true → h.isoDate val = none →
      weld.map h parent element key val = .error .rangeError) ∧
    (∀ v, val = .str v →
      ((∃ err, weld.map h parent element key val = .error err) ↔
        chooseRule element = .date ∧ v ≠ [] ∧ h.isoDate (.str v) = none)) := by
  rw [hasClass_dispatch]
  refine ⟨rfl, applyRule_returns_false h _ parent element val,
    applyRule_raises_iff h _ parent element val, ?_, ?_, ?_⟩
  · intro hr hs
    rw [hr]
    cases val <;> simp_all [applyRule, Val.isString]
  · intro hr hv hd
    rw [hr]
    simp [applyRule, hv, hd]
  · intro v hval
    rw [applyRule_raises_iff, hval]
    simp [Val.isString, Val.truthy]

/-- C10 as stated fails: on a `time` element of class `date` and the value `not a date` the
handler raises a `RangeError` and returns nothing; on an element of class `ls` and the value
`null` it raises a `TypeError`. -/
theorem map_dispatch_counterexample :
    weld.map exampleHtml exampleDom dateElement "date".toList (.str "not a date".toList) =
      .error .rangeError ∧
    chooseRule dateElement = .date ∧
    weld.map exampleHtml exampleDom listElement "ls".toList .null = .error .typeError ∧
    chooseRule listElement = .listing :=
  ⟨rfl, by decide, rfl, by decide⟩

end Content
